import Mathlib

set_option maxHeartbeats 1000000

/-!
Verification development for athenet's interval-arithmetic core
(athenet/algorithm/numlike/npinterval.py, theanointerval.py), its
derest ReLU layer rules (athenet/algorithm/derest/layers/relu.py) and
the pruning utilities (athenet/algorithm/utils.py).

Tensors are modelled elementwise as functions from a finite index type
to the rationals (real arithmetic of the numeric code, with exact
values); the eager (NumPy) realization's constructor assert is modelled
by an Option-valued checked constructor.
-/

/-- Interval of same-shaped bound tensors: a pair of tensors, one
element per index `i : Fin n`. Models the bound pair held by
athenet's Interval classes. -/
structure Iv (α : Type) (n : ℕ) where
  lower : Fin n → α
  upper : Fin n → α

namespace Iv

variable {α : Type} {n : ℕ}

theorem ext_iff' {a b : Iv α n} :
    a = b ↔ a.lower = b.lower ∧ a.upper = b.upper := by
  cases a
  cases b
  simp [Iv.mk.injEq]

instance [DecidableEq α] : DecidableEq (Iv α n) := fun a b =>
  decidable_of_iff (a.lower = b.lower ∧ a.upper = b.upper) ext_iff'.symm

/-- An interval is valid when every element's lower bound is at most its
upper bound (the intended data invariant of the Interval type). -/
def valid [LE α] (v : Iv α n) : Prop := ∀ i, v.lower i ≤ v.upper i

instance [LE α] [DecidableRel ((· ≤ ·) : α → α → Prop)] (v : Iv α n) :
    Decidable v.valid :=
  decidable_of_iff (∀ i, v.lower i ≤ v.upper i) Iff.rfl

end Iv

/-- The tolerance 0.0001 used by the NpInterval constructor assert. -/
def intervalEps (α : Type) [LinearOrderedField α] : α := 1 / 10000

variable {α : Type} [LinearOrderedField α] {n m : ℕ}

theorem intervalEps_pos : 0 < intervalEps α := by
  have h : (0 : α) < 10000 := by positivity
  exact div_pos one_pos h

namespace NpInterval

/-- NpInterval.__init__: asserts (lower - 0.0001 <= upper).all() and
otherwise stores the bound pair; a failing assert raises
AssertionError, modelled as `none`. -/
def mk? (l u : Fin n → α) : Option (Iv α n) :=
  if ∀ i, l i - intervalEps α ≤ u i then some ⟨l, u⟩ else none

theorem mk?_eq_some {l u : Fin n → α} (h : ∀ i, l i ≤ u i) :
    mk? l u = some ⟨l, u⟩ := by
  unfold mk?
  rw [if_pos]
  intro i
  have he : (0 : α) < intervalEps α := intervalEps_pos
  have := h i
  linarith

theorem mk?_invariant {l u : Fin n → α} {r : Iv α n}
    (h : mk? l u = some r) :
    ∀ i, r.lower i ≤ r.upper i + intervalEps α := by
  unfold mk? at h
  by_cases hc : ∀ i, l i - intervalEps α ≤ u i
  · rw [if_pos hc] at h
    cases h
    intro i
    have := hc i
    linarith
  · rw [if_neg hc] at h
    cases h

theorem mk?_none_iff {l u : Fin n → α} :
    mk? l u = none ↔ ∃ i, u i + intervalEps α < l i := by
  unfold mk?
  by_cases hc : ∀ i, l i - intervalEps α ≤ u i
  · rw [if_pos hc]
    simp only [reduceCtorEq, false_iff, not_exists, not_lt]
    intro i
    have := hc i
    linarith
  · rw [if_neg hc]
    simp only [true_iff]
    push_neg at hc
    obtain ⟨i, hi⟩ := hc
    exact ⟨i, by linarith⟩

/-- NpInterval.__mul__, Interval operand: the four corner products,
combined with np.minimum / np.maximum. -/
def mul (a b : Iv α n) : Option (Iv α n) :=
  mk?
    (fun i => Min.min
      (Min.min (a.lower i * b.lower i) (a.lower i * b.upper i))
      (Min.min (a.upper i * b.lower i) (a.upper i * b.upper i)))
    (fun i => Max.max
      (Max.max (a.lower i * b.lower i) (a.lower i * b.upper i))
      (Max.max (a.upper i * b.lower i) (a.upper i * b.upper i)))

/-- NpInterval.__mul__, plain-tensor operand: the two corner products. -/
def mulScalar (a : Iv α n) (t : Fin n → α) : Option (Iv α n) :=
  mk?
    (fun i => Min.min (a.lower i * t i) (a.upper i * t i))
    (fun i => Max.max (a.lower i * t i) (a.upper i * t i))

/-- NpInterval.__div__, Interval operand: the four corner quotients,
combined with np.minimum / np.maximum. Field division is total
(0 / 0 = 0 here), so this rational embedding does not reproduce the
0/0-corner NaN that makes the source's constructor assert raise;
that error path is modelled exactly by NpIntervalF.divF in the float
model below, and statements about this definition either condition on
a returned result or on a sign-definite divisor, under which the
source arithmetic is finite and agrees. -/
def div (a b : Iv α n) : Option (Iv α n) :=
  mk?
    (fun i => Min.min
      (Min.min (a.lower i / b.lower i) (a.lower i / b.upper i))
      (Min.min (a.upper i / b.lower i) (a.upper i / b.upper i)))
    (fun i => Max.max
      (Max.max (a.lower i / b.lower i) (a.lower i / b.upper i))
      (Max.max (a.upper i / b.lower i) (a.upper i / b.upper i)))

/-- NpInterval.__div__, plain-value operand: bounds lower/other and
upper/other, then np.minimum / np.maximum of the two. -/
def divScalar (a : Iv α n) (t : α) : Option (Iv α n) :=
  mk?
    (fun i => Min.min (a.lower i / t) (a.upper i / t))
    (fun i => Max.max (a.lower i / t) (a.upper i / t))

/-- NpInterval.reciprocal: np.minimum / np.maximum of the elementwise
reciprocals of the two bounds. -/
def reciprocal (a : Iv α n) : Option (Iv α n) :=
  mk?
    (fun i => Min.min (a.upper i)⁻¹ (a.lower i)⁻¹)
    (fun i => Max.max (a.upper i)⁻¹ (a.lower i)⁻¹)

/-- NpInterval.neg: bounds (-upper, -lower). -/
def neg (a : Iv α n) : Option (Iv α n) :=
  mk? (fun i => -a.upper i) (fun i => -a.lower i)

/-- NpInterval._has_zero at one index: lower <= 0 and upper >= 0
(non-strict, as in the NumPy realization). -/
def hasZero (a : Iv α n) (i : Fin n) : Prop :=
  a.lower i ≤ 0 ∧ 0 ≤ a.upper i

instance (a : Iv α n) (i : Fin n) : Decidable (hasZero a i) :=
  instDecidableAnd

/-- NpInterval.square: lower bound 0 where the interval has zero, else
the minimum of the squared bounds; upper bound the maximum of the
squared bounds. -/
def square (a : Iv α n) : Option (Iv α n) :=
  mk?
    (fun i => if hasZero a i then 0
              else Min.min (a.lower i * a.lower i) (a.upper i * a.upper i))
    (fun i => Max.max (a.lower i * a.lower i) (a.upper i * a.upper i))

/-- NpInterval.power for an integer exponent: the sign/parity case
split of the source (the non-integer branch of the source assumes a
non-negative interval and is not needed by the claims). Python's
modulo on negative integers agrees with Int.emod on parity. -/
def power (a : Iv α n) (e : ℤ) : Option (Iv α n) :=
  if 0 < e then
    if e % 2 = 0 then
      mk?
        (fun i => if hasZero a i then 0
                  else Min.min (a.lower i ^ e) (a.upper i ^ e))
        (fun i => Max.max (a.lower i ^ e) (a.upper i ^ e))
    else
      mk? (fun i => a.lower i ^ e) (fun i => a.upper i ^ e)
  else
    if e % 2 = 0 then
      mk?
        (fun i => Min.min (a.lower i ^ e) (a.upper i ^ e))
        (fun i => Max.max (a.lower i ^ e) (a.upper i ^ e))
    else
      mk? (fun i => a.upper i ^ e) (fun i => a.lower i ^ e)

/-- NpInterval.dot with a plain weight tensor: the weights are split
into the non-negative part np.maximum(other, 0) and the non-positive
part np.minimum(other, 0); lower = lower.dot(pos) + upper.dot(neg),
upper = upper.dot(pos) + lower.dot(neg). -/
def dot (a : Iv α n) (w : Fin n → Fin m → α) : Option (Iv α m) :=
  mk?
    (fun j => (∑ i, a.lower i * Max.max (w i j) 0) +
              (∑ i, a.upper i * Min.min (w i j) 0))
    (fun j => (∑ i, a.upper i * Max.max (w i j) 0) +
              (∑ i, a.lower i * Min.min (w i j) 0))

/-- NpInterval.max with an Interval operand: elementwise maxima of the
lower bounds and of the upper bounds (named max' to avoid clashing
with the order-theoretic max). -/
def max' (a b : Iv α n) : Option (Iv α n) :=
  mk?
    (fun i => Max.max (a.lower i) (b.lower i))
    (fun i => Max.max (a.upper i) (b.upper i))

/-- NpInterval.abs: lower bound from np.select on the sign cases,
upper bound np.maximum(-lower, upper) (named abs' to avoid clashing
with the built-in abs). -/
def abs' (a : Iv α n) : Option (Iv α n) :=
  mk?
    (fun i => if 0 < a.lower i then a.lower i
              else if a.upper i < 0 then -a.upper i else 0)
    (fun i => Max.max (-a.lower i) (a.upper i))

end NpInterval

namespace TheanoInterval

/-- TheanoInterval.__mul__, Interval operand: the four corner products
combined by the chained T.minimum / T.maximum of the source. The lazy
realization builds graph nodes and performs no constructor check. -/
def mul (a b : Iv α n) : Iv α n :=
  { lower := fun i => Min.min (Min.min (Min.min
      (a.lower i * b.lower i) (a.lower i * b.upper i))
      (a.upper i * b.lower i)) (a.upper i * b.upper i)
    upper := fun i => Max.max (Max.max (Max.max
      (a.lower i * b.lower i) (a.lower i * b.upper i))
      (a.upper i * b.lower i)) (a.upper i * b.upper i) }

/-- TheanoInterval.__mul__, plain-tensor operand. -/
def mulScalar (a : Iv α n) (t : Fin n → α) : Iv α n :=
  { lower := fun i => Min.min (a.lower i * t i) (a.upper i * t i)
    upper := fun i => Max.max (a.lower i * t i) (a.upper i * t i) }

/-- TheanoInterval.__div__, Interval operand: the switch network of the
source, selecting one corner quotient per bound from the signs of
other.lower, self.lower and self.upper. -/
def div (a b : Iv α n) : Iv α n :=
  { lower := fun i =>
      let la := if 0 < b.lower i then a.lower i else a.upper i
      let lb := if (0 < b.lower i ∧ 0 < a.lower i) ∨
                   (¬ 0 < b.lower i ∧ 0 < a.upper i)
                then b.upper i else b.lower i
      la / lb
    upper := fun i =>
      let ua := if 0 < b.lower i then a.upper i else a.lower i
      let ub := if (¬ 0 < b.lower i ∧ ¬ 0 < a.lower i) ∨
                   (0 < b.lower i ∧ ¬ 0 < a.upper i)
                then b.upper i else b.lower i
      ua / ub }

/-- TheanoInterval.__div__, plain-value operand: divides the bounds and
swaps them when the divisor is not positive. -/
def divScalar (a : Iv α n) (t : α) : Iv α n :=
  if 0 < t then
    { lower := fun i => a.lower i / t, upper := fun i => a.upper i / t }
  else
    { lower := fun i => a.upper i / t, upper := fun i => a.lower i / t }

/-- TheanoInterval.reciprocal: T.inv of the swapped bounds, with no
zero-containment check (the check in the source is commented out). -/
def reciprocal (a : Iv α n) : Iv α n :=
  { lower := fun i => (a.upper i)⁻¹
    upper := fun i => (a.lower i)⁻¹ }

/-- TheanoInterval._has_zero at one index: strict comparisons, unlike
the NumPy realization. -/
def hasZero (a : Iv α n) (i : Fin n) : Prop :=
  a.lower i < 0 ∧ 0 < a.upper i

instance (a : Iv α n) (i : Fin n) : Decidable (hasZero a i) :=
  instDecidableAnd

/-- TheanoInterval.square. -/
def square (a : Iv α n) : Iv α n :=
  { lower := fun i => if hasZero a i then 0
      else Min.min (a.lower i * a.lower i) (a.upper i * a.upper i)
    upper := fun i =>
      Max.max (a.lower i * a.lower i) (a.upper i * a.upper i) }

/-- TheanoInterval.power for an integer exponent: the sign/parity case
split of the source. -/
def power (a : Iv α n) (e : ℤ) : Iv α n :=
  if 0 < e then
    if e % 2 = 0 then
      { lower := fun i => if hasZero a i then 0
          else Min.min (a.lower i ^ e) (a.upper i ^ e)
        upper := fun i => Max.max (a.lower i ^ e) (a.upper i ^ e) }
    else
      { lower := fun i => a.lower i ^ e, upper := fun i => a.upper i ^ e }
  else
    if e % 2 = 0 then
      { lower := fun i => Min.min (a.lower i ^ e) (a.upper i ^ e)
        upper := fun i => Max.max (a.lower i ^ e) (a.upper i ^ e) }
    else
      { lower := fun i => a.upper i ^ e, upper := fun i => a.lower i ^ e }

/-- TheanoInterval.op_relu: T.maximum of each bound with 0. -/
def op_relu (a : Iv α n) : Iv α n :=
  { lower := fun i => Max.max (a.lower i) 0
    upper := fun i => Max.max (a.upper i) 0 }

end TheanoInterval

namespace AthenetUtils

/-- athenet.algorithm.utils.delete_column: iterates j over the row
indices and sets W[j][i] to 0. -/
def delete_column (W : Fin m → Fin n → α) (i : Fin n) : Fin m → Fin n → α :=
  (List.finRange m).foldl
    (fun acc j => fun j' i' => if j' = j ∧ i' = i then 0 else acc j' i') W

/-- athenet.algorithm.utils.delete_row: its body is identical to
delete_column (it also iterates j over the rows and zeroes W[j][i]). -/
def delete_row (W : Fin m → Fin n → α) (i : Fin n) : Fin m → Fin n → α :=
  (List.finRange m).foldl
    (fun acc j => fun j' i' => if j' = j ∧ i' = i then 0 else acc j' i') W

theorem delete_column_foldl (W : Fin m → Fin n → α) (i : Fin n)
    (L : List (Fin m)) (j' : Fin m) (i' : Fin n) :
    (L.foldl
      (fun acc j => fun j'' i'' => if j'' = j ∧ i'' = i then 0 else acc j'' i'')
      W) j' i' = if j' ∈ L ∧ i' = i then 0 else W j' i' := by
  induction L generalizing W with
  | nil => simp
  | cons x xs ih =>
    simp only [List.foldl_cons, ih, List.mem_cons]
    by_cases hi : i' = i
    · by_cases hj : j' = x
      · simp [hi, hj]
      · by_cases hm : j' ∈ xs
        · simp [hi, hj, hm]
        · simp [hi, hj, hm]
    · simp [hi]

end AthenetUtils

/-- C2: interval multiplication follows the corner-enumeration rule in
both realizations: for every pair of intervals, the eager product is
constructed (the assert passes) with lower bound the elementwise
minimum and upper bound the elementwise maximum of the four corner
products, the lazy product has the same bounds, and against a plain
tensor the corners reduce to the two products of the bounds with the
tensor, again in both realizations. -/
theorem C2_mul_corner_rule (n : ℕ) (a b : Iv ℚ n) (t : Fin n → ℚ) :
    (NpInterval.mul a b = some
      { lower := fun i => Min.min
          (Min.min (a.lower i * b.lower i) (a.lower i * b.upper i))
          (Min.min (a.upper i * b.lower i) (a.upper i * b.upper i))
        upper := fun i => Max.max
          (Max.max (a.lower i * b.lower i) (a.lower i * b.upper i))
          (Max.max (a.upper i * b.lower i) (a.upper i * b.upper i)) }) ∧
    (∀ i, (TheanoInterval.mul a b).lower i = Min.min
          (Min.min (a.lower i * b.lower i) (a.lower i * b.upper i))
          (Min.min (a.upper i * b.lower i) (a.upper i * b.upper i)) ∧
        (TheanoInterval.mul a b).upper i = Max.max
          (Max.max (a.lower i * b.lower i) (a.lower i * b.upper i))
          (Max.max (a.upper i * b.lower i) (a.upper i * b.upper i))) ∧
    (NpInterval.mulScalar a t = some
      { lower := fun i => Min.min (a.lower i * t i) (a.upper i * t i)
        upper := fun i => Max.max (a.lower i * t i) (a.upper i * t i) }) ∧
    (∀ i, (TheanoInterval.mulScalar a t).lower i =
          Min.min (a.lower i * t i) (a.upper i * t i) ∧
        (TheanoInterval.mulScalar a t).upper i =
          Max.max (a.lower i * t i) (a.upper i * t i)) := by
  refine ⟨?_, ?_, ?_, ?_⟩
  · apply NpInterval.mk?_eq_some
    intro i
    exact le_trans (min_le_left _ _)
      (le_trans (min_le_left _ _) (le_trans (le_max_left _ _) (le_max_left _ _)))
  · intro i
    constructor
    · show Min.min (Min.min (Min.min _ _) _) _ = _
      rw [min_assoc]
    · show Max.max (Max.max (Max.max _ _) _) _ = _
      rw [max_assoc]
  · apply NpInterval.mk?_eq_some
    intro i
    exact le_trans (min_le_left _ _) (le_max_left _ _)
  · intro i
    exact ⟨rfl, rfl⟩

/-- C8: raising an interval to the power 2 agrees with squaring it, in
both realizations: the two operations return equal results for every
interval (including the zero-straddling case, where both produce the
lower bound 0 through the same has-zero test of that realization). -/
theorem C8_power_two_eq_square (n : ℕ) (a : Iv ℚ n) :
    NpInterval.power a 2 = NpInterval.square a ∧
    TheanoInterval.power a 2 = TheanoInterval.square a := by
  have hz : ∀ x : ℚ, x ^ (2 : ℤ) = x * x := by
    intro x
    rw [show (2 : ℤ) = ((2 : ℕ) : ℤ) by norm_num, zpow_natCast, sq]
  constructor
  · unfold NpInterval.power NpInterval.square
    rw [if_pos (by norm_num), if_pos (by norm_num)]
    simp only [hz]
  · unfold TheanoInterval.power TheanoInterval.square
    rw [if_pos (by norm_num), if_pos (by norm_num)]
    simp only [hz]

/-- C10: delete_row and delete_column are the same operation: both
zero the i-th column of the weight matrix (every W[j][i] becomes 0)
and leave every entry outside column i unchanged; in particular
delete_row does not zero the entries of row i outside column i. -/
theorem C10_delete_row_eq_delete_column (mr nc : ℕ)
    (W : Fin mr → Fin nc → ℚ) (i : Fin nc) :
    AthenetUtils.delete_row W i = AthenetUtils.delete_column W i ∧
    (∀ j : Fin mr, AthenetUtils.delete_row W i j i = 0) ∧
    (∀ (j : Fin mr) (i' : Fin nc), i' ≠ i →
      AthenetUtils.delete_row W i j i' = W j i') := by
  refine ⟨rfl, ?_, ?_⟩
  · intro j
    unfold AthenetUtils.delete_row
    rw [AthenetUtils.delete_column_foldl]
    simp [List.mem_finRange]
  · intro j i' hne
    unfold AthenetUtils.delete_row
    rw [AthenetUtils.delete_column_foldl]
    simp [hne]

/-- Output of an eager interval operation that was actually
constructed (the assert passed) and satisfies the relaxed invariant
lower <= upper + 0.0001 everywhere. -/
def soundOutput (o : Option (Iv α n)) : Prop :=
  ∃ r, o = some r ∧ ∀ i, r.lower i ≤ r.upper i + intervalEps α

theorem soundOutput_of_le {l u : Fin n → α} (h : ∀ i, l i ≤ u i) :
    soundOutput (NpInterval.mk? l u) := by
  refine ⟨⟨l, u⟩, NpInterval.mk?_eq_some h, ?_⟩
  intro i
  have he : (0 : α) < intervalEps α := intervalEps_pos
  have := h i
  simp only
  linarith

theorem min4_le_max4 {β : Type} [LinearOrder β] {p q r s : β} :
    Min.min (Min.min p q) (Min.min r s) ≤ Max.max (Max.max p q) (Max.max r s) :=
  le_trans (min_le_left _ _)
    (le_trans (min_le_left _ _) (le_trans (le_max_left _ _) (le_max_left _ _)))

/-- C1: soundness invariant of the eager realization. For valid inputs
(lower <= upper elementwise), multiply, reciprocal, negate,
exponential, square, dot product, elementwise max and absolute value
all construct their result (the assert passes) and the result obeys
lower <= upper + 0.0001 elementwise. Division and power can raise at
construction (division at a 0/0 corner, see the C4 development; power
at a negative odd exponent on a zero-straddling interval), so for
them the claim's returned-interval form is proved: whatever interval
they return obeys the bound — and division does construct its result
whenever the divisor is sign-definite. A violating bound pair is
always rejected by the constructor assert (final conjunct). -/
theorem C1_eager_invariant (n m : ℕ) (a b : Iv ℚ n)
    (w : Fin n → Fin m → ℚ) (e : ℤ) (ha : a.valid) (hb : b.valid) :
    soundOutput (NpInterval.mul a b) ∧
    (∀ r, NpInterval.div a b = some r →
      ∀ i, r.lower i ≤ r.upper i + intervalEps ℚ) ∧
    ((∀ i, 0 < b.lower i ∨ b.upper i < 0) →
      soundOutput (NpInterval.div a b)) ∧
    soundOutput (NpInterval.reciprocal a) ∧
    soundOutput (NpInterval.neg a) ∧
    (∀ v : Iv ℝ n, v.valid →
      soundOutput (NpInterval.mk?
        (fun i => Real.exp (v.lower i)) (fun i => Real.exp (v.upper i)))) ∧
    soundOutput (NpInterval.square a) ∧
    (∀ r, NpInterval.power a e = some r →
      ∀ i, r.lower i ≤ r.upper i + intervalEps ℚ) ∧
    soundOutput (NpInterval.dot a w) ∧
    soundOutput (NpInterval.max' a b) ∧
    soundOutput (NpInterval.abs' a) ∧
    (∀ l u : Fin n → ℚ,
      NpInterval.mk? l u = none ↔ ∃ i, u i + intervalEps ℚ < l i) := by
  refine ⟨?_, ?_, ?_, ?_, ?_, ?_, ?_, ?_, ?_, ?_, ?_, ?_⟩
  · exact soundOutput_of_le fun i => min4_le_max4
  · intro r hr
    unfold NpInterval.div at hr
    exact NpInterval.mk?_invariant hr
  · intro _hz
    exact soundOutput_of_le fun i => min4_le_max4
  · exact soundOutput_of_le fun i => le_trans (min_le_left _ _) (le_max_left _ _)
  · exact soundOutput_of_le fun i => neg_le_neg (ha i)
  · intro v hv
    exact soundOutput_of_le fun i => Real.exp_le_exp.mpr (hv i)
  · apply soundOutput_of_le
    intro i
    by_cases hz : NpInterval.hasZero a i
    · rw [if_pos hz]
      exact le_trans (mul_self_nonneg (a.upper i)) (le_max_right _ _)
    · rw [if_neg hz]
      exact le_trans (min_le_left _ _) (le_max_left _ _)
  · intro r hr
    unfold NpInterval.power at hr
    split_ifs at hr <;> exact NpInterval.mk?_invariant hr
  · apply soundOutput_of_le
    intro j
    apply add_le_add
    · apply Finset.sum_le_sum
      intro i _
      exact mul_le_mul_of_nonneg_right (ha i) (le_max_right _ _)
    · apply Finset.sum_le_sum
      intro i _
      have hm : Min.min (w i j) 0 ≤ 0 := min_le_right _ _
      exact mul_le_mul_of_nonpos_right (ha i) hm
  · exact soundOutput_of_le fun i => max_le_max (ha i) (hb i)
  · apply soundOutput_of_le
    intro i
    by_cases h1 : 0 < a.lower i
    · rw [if_pos h1]
      exact le_trans (ha i) (le_max_right _ _)
    · rw [if_neg h1]
      by_cases h2 : a.upper i < 0
      · rw [if_pos h2]
        exact le_trans (neg_le_neg (ha i)) (le_max_left _ _)
      · rw [if_neg h2]
        push_neg at h2
        exact le_trans h2 (le_max_right _ _)
  · intro l u
    exact NpInterval.mk?_none_iff

/-- Witness for C1 at a concrete valid input pair. -/
theorem C1_eager_invariant_witness :
    Iv.valid (⟨fun _ => 1, fun _ => 2⟩ : Iv ℚ 1) ∧
    Iv.valid (⟨fun _ => -3, fun _ => 5⟩ : Iv ℚ 1) ∧
    (soundOutput (NpInterval.mul (⟨fun _ => 1, fun _ => 2⟩ : Iv ℚ 1)
        (⟨fun _ => -3, fun _ => 5⟩ : Iv ℚ 1)) ∧
      (∀ r, NpInterval.div (⟨fun _ => 1, fun _ => 2⟩ : Iv ℚ 1)
          (⟨fun _ => -3, fun _ => 5⟩ : Iv ℚ 1) = some r →
        ∀ i, r.lower i ≤ r.upper i + intervalEps ℚ) ∧
      ((∀ i : Fin 1, 0 < (⟨fun _ => -3, fun _ => 5⟩ : Iv ℚ 1).lower i ∨
          (⟨fun _ => -3, fun _ => 5⟩ : Iv ℚ 1).upper i < 0) →
        soundOutput (NpInterval.div (⟨fun _ => 1, fun _ => 2⟩ : Iv ℚ 1)
          (⟨fun _ => -3, fun _ => 5⟩ : Iv ℚ 1))) ∧
      soundOutput (NpInterval.reciprocal (⟨fun _ => 1, fun _ => 2⟩ : Iv ℚ 1)) ∧
      soundOutput (NpInterval.neg (⟨fun _ => 1, fun _ => 2⟩ : Iv ℚ 1)) ∧
      (∀ v : Iv ℝ 1, v.valid →
        soundOutput (NpInterval.mk?
          (fun i => Real.exp (v.lower i)) (fun i => Real.exp (v.upper i)))) ∧
      soundOutput (NpInterval.square (⟨fun _ => 1, fun _ => 2⟩ : Iv ℚ 1)) ∧
      (∀ r, NpInterval.power (⟨fun _ => 1, fun _ => 2⟩ : Iv ℚ 1) (-3) = some r →
        ∀ i, r.lower i ≤ r.upper i + intervalEps ℚ) ∧
      soundOutput (NpInterval.dot (⟨fun _ => 1, fun _ => 2⟩ : Iv ℚ 1)
        (fun _ _ => (-2 : ℚ) : Fin 1 → Fin 1 → ℚ)) ∧
      soundOutput (NpInterval.max' (⟨fun _ => 1, fun _ => 2⟩ : Iv ℚ 1)
        (⟨fun _ => -3, fun _ => 5⟩ : Iv ℚ 1)) ∧
      soundOutput (NpInterval.abs' (⟨fun _ => 1, fun _ => 2⟩ : Iv ℚ 1)) ∧
      (∀ l u : Fin 1 → ℚ,
        NpInterval.mk? l u = none ↔ ∃ i, u i + intervalEps ℚ < l i)) :=
  ⟨by decide, by decide,
    C1_eager_invariant 1 1 (⟨fun _ => 1, fun _ => 2⟩ : Iv ℚ 1)
      (⟨fun _ => -3, fun _ => 5⟩ : Iv ℚ 1)
      (fun _ _ => (-2 : ℚ)) (-3) (by decide) (by decide)⟩

theorem dle_pos {a b c d : α} (hb : 0 < b) (hd : 0 < d)
    (h : a * d ≤ c * b) : a / b ≤ c / d :=
  (div_le_div_iff₀ hb hd).mpr h

theorem dle_neg {a b c d : α} (hb : b < 0) (hd : d < 0)
    (h : a * d ≤ c * b) : a / b ≤ c / d := by
  rw [← neg_div_neg_eq a b, ← neg_div_neg_eq c d]
  apply dle_pos (by linarith) (by linarith)
  rw [neg_mul_neg, neg_mul_neg]
  exact h

theorem div_corner_min_pos {lo up ol ou : α}
    (hlu : lo ≤ up) (h0 : 0 < ol) (hol : ol ≤ ou) :
    (if 0 < lo then lo / ou else lo / ol) =
      Min.min (Min.min (lo / ol) (lo / ou)) (Min.min (up / ol) (up / ou)) := by
  have h0u : 0 < ou := lt_of_lt_of_le h0 hol
  by_cases hc : 0 < lo
  · rw [if_pos hc]
    apply le_antisymm
    · refine le_min (le_min ?_ le_rfl) (le_min ?_ ?_)
      · exact dle_pos h0u h0 (by nlinarith)
      · exact dle_pos h0u h0 (by nlinarith)
      · exact dle_pos h0u h0u (by nlinarith)
    · exact le_trans (min_le_left _ _) (min_le_right _ _)
  · rw [if_neg hc]
    push_neg at hc
    apply le_antisymm
    · refine le_min (le_min le_rfl ?_) (le_min ?_ ?_)
      · exact dle_pos h0 h0u (by nlinarith)
      · exact dle_pos h0 h0 (by nlinarith)
      · exact dle_pos h0 h0u (by nlinarith)
    · exact le_trans (min_le_left _ _) (min_le_left _ _)

theorem div_corner_max_pos {lo up ol ou : α}
    (hlu : lo ≤ up) (h0 : 0 < ol) (hol : ol ≤ ou) :
    (if 0 < up then up / ol else up / ou) =
      Max.max (Max.max (lo / ol) (lo / ou)) (Max.max (up / ol) (up / ou)) := by
  have h0u : 0 < ou := lt_of_lt_of_le h0 hol
  by_cases hc : 0 < up
  · rw [if_pos hc]
    apply le_antisymm
    · exact le_trans (le_max_left _ _) (le_max_right _ _)
    · refine max_le (max_le ?_ ?_) (max_le le_rfl ?_)
      · exact dle_pos h0 h0 (by nlinarith)
      · exact dle_pos h0u h0 (by nlinarith)
      · exact dle_pos h0u h0 (by nlinarith)
  · rw [if_neg hc]
    push_neg at hc
    apply le_antisymm
    · exact le_trans (le_max_right _ _) (le_max_right _ _)
    · refine max_le (max_le ?_ ?_) (max_le ?_ le_rfl)
      · exact dle_pos h0 h0u (by nlinarith)
      · exact dle_pos h0u h0u (by nlinarith)
      · exact dle_pos h0 h0u (by nlinarith)

theorem div_corner_min_neg {lo up ol ou : α}
    (hlu : lo ≤ up) (h0 : ou < 0) (hol : ol ≤ ou) :
    (if 0 < up then up / ou else up / ol) =
      Min.min (Min.min (lo / ol) (lo / ou)) (Min.min (up / ol) (up / ou)) := by
  have h0l : ol < 0 := lt_of_le_of_lt hol h0
  by_cases hc : 0 < up
  · rw [if_pos hc]
    apply le_antisymm
    · refine le_min (le_min ?_ ?_) (le_min ?_ le_rfl)
      · exact dle_neg h0 h0l (by nlinarith)
      · exact dle_neg h0 h0 (by nlinarith)
      · exact dle_neg h0 h0l (by nlinarith)
    · exact le_trans (min_le_right _ _) (min_le_right _ _)
  · rw [if_neg hc]
    push_neg at hc
    apply le_antisymm
    · refine le_min (le_min ?_ ?_) (le_min le_rfl ?_)
      · exact dle_neg h0l h0l (by nlinarith)
      · exact dle_neg h0l h0 (by nlinarith)
      · exact dle_neg h0l h0 (by nlinarith)
    · exact le_trans (min_le_right _ _) (min_le_left _ _)

theorem div_corner_max_neg {lo up ol ou : α}
    (hlu : lo ≤ up) (h0 : ou < 0) (hol : ol ≤ ou) :
    (if 0 < lo then lo / ol else lo / ou) =
      Max.max (Max.max (lo / ol) (lo / ou)) (Max.max (up / ol) (up / ou)) := by
  have h0l : ol < 0 := lt_of_le_of_lt hol h0
  by_cases hc : 0 < lo
  · rw [if_pos hc]
    apply le_antisymm
    · exact le_trans (le_max_left _ _) (le_max_left _ _)
    · refine max_le (max_le le_rfl ?_) (max_le ?_ ?_)
      · exact dle_neg h0 h0l (by nlinarith)
      · exact dle_neg h0l h0l (by nlinarith)
      · exact dle_neg h0 h0l (by nlinarith)
  · rw [if_neg hc]
    push_neg at hc
    apply le_antisymm
    · exact le_trans (le_max_right _ _) (le_max_left _ _)
    · refine max_le (max_le ?_ le_rfl) (max_le ?_ ?_)
      · exact dle_neg h0l h0 (by nlinarith)
      · exact dle_neg h0l h0 (by nlinarith)
      · exact dle_neg h0 h0 (by nlinarith)

/-- C3: interval division obeys the four/two-corner rule in both
realizations. When the divisor does not contain zero (elementwise
lower > 0 or upper < 0), the eager division constructs a result whose
bounds equal those of the lazy division, and those bounds are the
elementwise min/max over the four corner quotients; division by a
nonzero plain value uses the two corners lower/t and upper/t, again
with equal bounds in both realizations. -/
theorem C3_div_corner_refinement (n : ℕ) (a b : Iv ℚ n) (t : ℚ)
    (ha : a.valid) (hb : b.valid)
    (hz : ∀ i, 0 < b.lower i ∨ b.upper i < 0) (ht : t ≠ 0) :
    NpInterval.div a b = some (TheanoInterval.div a b) ∧
    (∀ i, (TheanoInterval.div a b).lower i =
        Min.min (Min.min (a.lower i / b.lower i) (a.lower i / b.upper i))
                (Min.min (a.upper i / b.lower i) (a.upper i / b.upper i)) ∧
      (TheanoInterval.div a b).upper i =
        Max.max (Max.max (a.lower i / b.lower i) (a.lower i / b.upper i))
                (Max.max (a.upper i / b.lower i) (a.upper i / b.upper i))) ∧
    NpInterval.divScalar a t = some (TheanoInterval.divScalar a t) ∧
    (∀ i, (TheanoInterval.divScalar a t).lower i =
        Min.min (a.lower i / t) (a.upper i / t) ∧
      (TheanoInterval.divScalar a t).upper i =
        Max.max (a.lower i / t) (a.upper i / t)) := by
  have hmin : ∀ i, (TheanoInterval.div a b).lower i =
      Min.min (Min.min (a.lower i / b.lower i) (a.lower i / b.upper i))
              (Min.min (a.upper i / b.lower i) (a.upper i / b.upper i)) := by
    intro i
    rcases hz i with hp | hn
    · rw [← div_corner_min_pos (ha i) hp (hb i)]
      by_cases hcl : 0 < a.lower i
      · simp [TheanoInterval.div, hp, hcl]
      · simp [TheanoInterval.div, hp, hcl]
        rw [if_neg (fun h => hp.not_le h.1)]
    · have hnp : ¬ 0 < b.lower i := by
        have := hb i
        intro hcon
        linarith
      rw [← div_corner_min_neg (ha i) hn (hb i)]
      by_cases hcu : 0 < a.upper i <;>
        simp [TheanoInterval.div, ← not_lt, hnp, hcu]
  have hmax : ∀ i, (TheanoInterval.div a b).upper i =
      Max.max (Max.max (a.lower i / b.lower i) (a.lower i / b.upper i))
              (Max.max (a.upper i / b.lower i) (a.upper i / b.upper i)) := by
    intro i
    rcases hz i with hp | hn
    · rw [← div_corner_max_pos (ha i) hp (hb i)]
      by_cases hcu : 0 < a.upper i
      · simp [TheanoInterval.div, hp, hcu]
        rw [if_neg (fun h => h.elim (fun h1 => hp.not_le h1.1)
          (fun h2 => hcu.not_le h2))]
      · simp [TheanoInterval.div, hp, hcu]
        rw [if_pos (Or.inr (not_lt.mp hcu))]
    · have hnp : ¬ 0 < b.lower i := by
        have := hb i
        intro hcon
        linarith
      rw [← div_corner_max_neg (ha i) hn (hb i)]
      by_cases hcl : 0 < a.lower i <;>
        simp [TheanoInterval.div, ← not_lt, hnp, hcl]
  have hsl : ∀ i, (TheanoInterval.divScalar a t).lower i =
      Min.min (a.lower i / t) (a.upper i / t) ∧
      (TheanoInterval.divScalar a t).upper i =
      Max.max (a.lower i / t) (a.upper i / t) := by
    intro i
    by_cases hp : 0 < t
    · have h1 : a.lower i / t ≤ a.upper i / t :=
        dle_pos hp hp (mul_le_mul_of_nonneg_right (ha i) (le_of_lt hp))
      constructor
      · simp [TheanoInterval.divScalar, hp, min_eq_left h1]
      · simp [TheanoInterval.divScalar, hp, max_eq_right h1]
    · have hneg : t < 0 := lt_of_le_of_ne (not_lt.mp hp) ht
      have h1 : a.upper i / t ≤ a.lower i / t :=
        dle_neg hneg hneg (mul_le_mul_of_nonpos_right (ha i) (le_of_lt hneg))
      constructor
      · simp [TheanoInterval.divScalar, hp, min_eq_right h1]
      · simp [TheanoInterval.divScalar, hp, max_eq_left h1]
  refine ⟨?_, fun i => ⟨hmin i, hmax i⟩, ?_, hsl⟩
  · unfold NpInterval.div
    rw [NpInterval.mk?_eq_some (fun i => min4_le_max4)]
    exact congrArg some (Iv.ext_iff'.mpr
      ⟨funext fun i => (hmin i).symm, funext fun i => (hmax i).symm⟩)
  · unfold NpInterval.divScalar
    rw [NpInterval.mk?_eq_some (fun i => min_le_max)]
    exact congrArg some (Iv.ext_iff'.mpr
      ⟨funext fun i => ((hsl i).1).symm, funext fun i => ((hsl i).2).symm⟩)

/-- Witness for C3 at concrete inputs with a zero-free divisor. -/
theorem C3_div_corner_refinement_witness :
    Iv.valid (⟨fun _ => -1, fun _ => 2⟩ : Iv ℚ 1) ∧
    Iv.valid (⟨fun _ => 1, fun _ => 3⟩ : Iv ℚ 1) ∧
    (∀ i : Fin 1, 0 < (⟨fun _ => 1, fun _ => 3⟩ : Iv ℚ 1).lower i ∨
      (⟨fun _ => 1, fun _ => 3⟩ : Iv ℚ 1).upper i < 0) ∧
    (-2 : ℚ) ≠ 0 ∧
    (NpInterval.div (⟨fun _ => -1, fun _ => 2⟩ : Iv ℚ 1)
        (⟨fun _ => 1, fun _ => 3⟩ : Iv ℚ 1) =
      some (TheanoInterval.div (⟨fun _ => -1, fun _ => 2⟩ : Iv ℚ 1)
        (⟨fun _ => 1, fun _ => 3⟩ : Iv ℚ 1)) ∧
      (∀ i, (TheanoInterval.div (⟨fun _ => -1, fun _ => 2⟩ : Iv ℚ 1)
          (⟨fun _ => 1, fun _ => 3⟩ : Iv ℚ 1)).lower i =
          Min.min (Min.min ((-1 : ℚ) / 1) ((-1 : ℚ) / 3))
                  (Min.min ((2 : ℚ) / 1) ((2 : ℚ) / 3)) ∧
        (TheanoInterval.div (⟨fun _ => -1, fun _ => 2⟩ : Iv ℚ 1)
          (⟨fun _ => 1, fun _ => 3⟩ : Iv ℚ 1)).upper i =
          Max.max (Max.max ((-1 : ℚ) / 1) ((-1 : ℚ) / 3))
                  (Max.max ((2 : ℚ) / 1) ((2 : ℚ) / 3))) ∧
      NpInterval.divScalar (⟨fun _ => -1, fun _ => 2⟩ : Iv ℚ 1) (-2) =
        some (TheanoInterval.divScalar (⟨fun _ => -1, fun _ => 2⟩ : Iv ℚ 1) (-2)) ∧
      (∀ i, (TheanoInterval.divScalar (⟨fun _ => -1, fun _ => 2⟩ : Iv ℚ 1)
          (-2)).lower i = Min.min ((-1 : ℚ) / (-2)) ((2 : ℚ) / (-2)) ∧
        (TheanoInterval.divScalar (⟨fun _ => -1, fun _ => 2⟩ : Iv ℚ 1)
          (-2)).upper i = Max.max ((-1 : ℚ) / (-2)) ((2 : ℚ) / (-2)))) :=
  ⟨by decide, by decide, by decide, by decide,
    C3_div_corner_refinement 1 (⟨fun _ => -1, fun _ => 2⟩ : Iv ℚ 1)
      (⟨fun _ => 1, fun _ => 3⟩ : Iv ℚ 1) (-2)
      (by decide) (by decide) (by decide) (by decide)⟩

/-- Modelled from the spec: the base Interval class implementing
op_d_relu is not under src/ (NpInterval only declares it as
NotImplementedError and relu.py only calls it). Rule from the spec:
strictly negative activation collapses the impact to zero, strictly
positive activation passes it through unchanged, an activation that
may be zero or straddles zero widens the impact to include zero on
the appropriate side; this reproduces the reference scenario of
ReluDerivativeTest. self is the output-impact interval, the argument
is the activation interval. -/
def Interval.op_d_relu (out act : Iv α n) : Iv α n :=
  { lower := fun i =>
      if act.upper i < 0 then 0
      else if 0 < act.lower i then out.lower i
      else Min.min (out.lower i) 0
    upper := fun i =>
      if act.upper i < 0 then 0
      else if 0 < act.lower i then out.upper i
      else Max.max (out.upper i) 0 }

/-- relu.py d_relu: dispatches to the output impact's op_d_relu with
the activation as argument. -/
def d_relu (out act : Iv α n) : Iv α n := Interval.op_d_relu out act

/-- C6: ReLU derivative case rule: the impact passes through unchanged
on strictly positive activation, collapses to zero on strictly
negative activation, and is widened to include zero when the
activation may be zero, and the six-element reference scenario of the
test suite is reproduced exactly. -/
theorem C6_d_relu_case_rule (n : ℕ) (act out : Iv ℚ n)
    (hact : act.valid) :
    (∀ i, act.upper i < 0 →
      (d_relu out act).lower i = 0 ∧ (d_relu out act).upper i = 0) ∧
    (∀ i, 0 < act.lower i →
      (d_relu out act).lower i = out.lower i ∧
      (d_relu out act).upper i = out.upper i) ∧
    (∀ i, act.lower i ≤ 0 → 0 ≤ act.upper i →
      (d_relu out act).lower i = Min.min (out.lower i) 0 ∧
      (d_relu out act).upper i = Max.max (out.upper i) 0) ∧
    d_relu (⟨![2, 3, 4, 7, 11, 13], ![3, 5, 7, 11, 13, 17]⟩ : Iv ℚ 6)
        (⟨![-2, -1, -1, 0, 0, 1], ![-1, 1, 0, 0, 1, 2]⟩ : Iv ℚ 6) =
      (⟨![0, 0, 0, 0, 0, 13], ![0, 5, 7, 11, 13, 17]⟩ : Iv ℚ 6) := by
  refine ⟨?_, ?_, ?_, by decide⟩
  · intro i h
    constructor <;> simp [d_relu, Interval.op_d_relu, h]
  · intro i h
    have h2 : ¬ act.upper i < 0 := by
      have := hact i
      intro hcon
      linarith
    constructor <;> simp [d_relu, Interval.op_d_relu, h, h2]
  · intro i h1 h2
    constructor <;>
      simp [d_relu, Interval.op_d_relu, h2.not_lt, h1.not_lt]

/-- Witness for C6, instantiating the strictly-negative-activation
case at the first element of the reference scenario. -/
theorem C6_d_relu_case_rule_witness :
    Iv.valid (⟨![-2, -1, -1, 0, 0, 1], ![-1, 1, 0, 0, 1, 2]⟩ : Iv ℚ 6) ∧
    (⟨![-2, -1, -1, 0, 0, 1], ![-1, 1, 0, 0, 1, 2]⟩ : Iv ℚ 6).upper 0 < 0 ∧
    ((d_relu (⟨![2, 3, 4, 7, 11, 13], ![3, 5, 7, 11, 13, 17]⟩ : Iv ℚ 6)
        (⟨![-2, -1, -1, 0, 0, 1], ![-1, 1, 0, 0, 1, 2]⟩ : Iv ℚ 6)).lower 0 = 0 ∧
      (d_relu (⟨![2, 3, 4, 7, 11, 13], ![3, 5, 7, 11, 13, 17]⟩ : Iv ℚ 6)
        (⟨![-2, -1, -1, 0, 0, 1], ![-1, 1, 0, 0, 1, 2]⟩ : Iv ℚ 6)).upper 0 = 0) :=
  ⟨by decide, by decide,
    (C6_d_relu_case_rule 6
      (⟨![-2, -1, -1, 0, 0, 1], ![-1, 1, 0, 0, 1, 2]⟩ : Iv ℚ 6)
      (⟨![2, 3, 4, 7, 11, 13], ![3, 5, 7, 11, 13, 17]⟩ : Iv ℚ 6)
      (by decide)).1 0 (by decide)⟩

/-- Modelled from the spec: Interval.__add__ of the base Interval
class is not under src/ (only its callers are); the interval model of
the spec adds bound pairs elementwise, and in the eager realization
the result passes through the constructor check like every other
operation. -/
def Interval.add (a b : Iv α n) : Option (Iv α n) :=
  NpInterval.mk?
    (fun i => a.lower i + b.lower i)
    (fun i => a.upper i + b.upper i)

/-- NpInterval.op_relu raises NotImplementedError unconditionally,
modelled as none. -/
def NpInterval.op_relu (_a : Iv α n) : Option (Iv α n) := none

/-- relu.py a_relu for the eager realization: tries op_relu and falls
back to (input + input.abs()) * 0.5 on NotImplementedError; a raise
in any step propagates (none). -/
def a_relu_np (x : Iv ℚ n) : Option (Iv ℚ n) :=
  match NpInterval.op_relu x with
  | some r => some r
  | none =>
    match NpInterval.abs' x with
    | none => none
    | some ab =>
      match Interval.add x ab with
      | none => none
      | some s => NpInterval.mulScalar s (fun _ => (1 : ℚ) / 2)

/-- relu.py a_relu for the lazy realization: op_relu is implemented,
so the fallback is not taken. -/
def a_relu_theano (x : Iv α n) : Iv α n := TheanoInterval.op_relu x

theorem abs_bounds_le (x : Iv ℚ n) (hx : x.valid) : ∀ i,
    (if 0 < x.lower i then x.lower i
     else if x.upper i < 0 then -x.upper i else 0)
      ≤ Max.max (-x.lower i) (x.upper i) := by
  intro i
  by_cases h1 : 0 < x.lower i
  · rw [if_pos h1]
    exact le_trans (hx i) (le_max_right _ _)
  · rw [if_neg h1]
    by_cases h2 : x.upper i < 0
    · rw [if_pos h2]
      exact le_trans (neg_le_neg (hx i)) (le_max_left _ _)
    · rw [if_neg h2]
      exact le_trans (not_lt.mp h2) (le_max_right _ _)

theorem a_relu_np_eval (x : Iv ℚ n) (hx : x.valid) :
    a_relu_np x = some
      { lower := fun i => (x.lower i +
          (if 0 < x.lower i then x.lower i
           else if x.upper i < 0 then -x.upper i else 0)) * (1 / 2)
        upper := fun i =>
          (x.upper i + Max.max (-x.lower i) (x.upper i)) * (1 / 2) } := by
  have habsv := abs_bounds_le x hx
  have hsum : ∀ i, x.lower i +
      (if 0 < x.lower i then x.lower i
       else if x.upper i < 0 then -x.upper i else 0) ≤
      x.upper i + Max.max (-x.lower i) (x.upper i) :=
    fun i => add_le_add (hx i) (habsv i)
  have habs : NpInterval.abs' x = some
      ⟨fun i => if 0 < x.lower i then x.lower i
                else if x.upper i < 0 then -x.upper i else 0,
       fun i => Max.max (-x.lower i) (x.upper i)⟩ := by
    unfold NpInterval.abs'
    exact NpInterval.mk?_eq_some habsv
  have hadd : Interval.add x
      ⟨fun i => if 0 < x.lower i then x.lower i
                else if x.upper i < 0 then -x.upper i else 0,
       fun i => Max.max (-x.lower i) (x.upper i)⟩ = some
      ⟨fun i => x.lower i +
          (if 0 < x.lower i then x.lower i
           else if x.upper i < 0 then -x.upper i else 0),
       fun i => x.upper i + Max.max (-x.lower i) (x.upper i)⟩ := by
    unfold Interval.add
    exact NpInterval.mk?_eq_some hsum
  have hmul : NpInterval.mulScalar
      ⟨fun i => x.lower i +
          (if 0 < x.lower i then x.lower i
           else if x.upper i < 0 then -x.upper i else 0),
       fun i => x.upper i + Max.max (-x.lower i) (x.upper i)⟩
      (fun _ => (1 : ℚ) / 2) = some
      ⟨fun i => Min.min
          ((x.lower i +
            (if 0 < x.lower i then x.lower i
             else if x.upper i < 0 then -x.upper i else 0)) * (1 / 2))
          ((x.upper i + Max.max (-x.lower i) (x.upper i)) * (1 / 2)),
       fun i => Max.max
          ((x.lower i +
            (if 0 < x.lower i then x.lower i
             else if x.upper i < 0 then -x.upper i else 0)) * (1 / 2))
          ((x.upper i + Max.max (-x.lower i) (x.upper i)) * (1 / 2))⟩ := by
    unfold NpInterval.mulScalar
    exact NpInterval.mk?_eq_some (fun i => min_le_max)
  have hhalf : ∀ i, (x.lower i +
      (if 0 < x.lower i then x.lower i
       else if x.upper i < 0 then -x.upper i else 0)) * (1 / 2 : ℚ) ≤
      (x.upper i + Max.max (-x.lower i) (x.upper i)) * (1 / 2) :=
    fun i => mul_le_mul_of_nonneg_right (hsum i) (by norm_num)
  simp only [a_relu_np, NpInterval.op_relu, habs, hadd, hmul]
  congr 1
  refine Iv.ext_iff'.mpr ⟨funext fun i => ?_, funext fun i => ?_⟩
  · exact min_eq_left (hhalf i)
  · exact max_eq_right (hhalf i)

/-- Counterexample for C7: on the eager realization (whose op_relu is
unimplemented) the generic fallback (x + abs(x)) * 0.5 applied to the
interval [-2, -1] yields [-1/2, 1/2], not the claimed
max(input, 0) = [0, 0]. -/
theorem C7_relu_fallback_counterexample :
    ∃ s, a_relu_np (⟨fun _ => -2, fun _ => -1⟩ : Iv ℚ 1) = some s ∧
      s.lower 0 = -(1 / 2) ∧ s.upper 0 = 1 / 2 ∧
      Max.max ((⟨fun _ => -2, fun _ => -1⟩ : Iv ℚ 1).lower 0) 0 = 0 ∧
      Max.max ((⟨fun _ => -2, fun _ => -1⟩ : Iv ℚ 1).upper 0) 0 = 0 ∧
      s.upper 0 ≠ Max.max ((⟨fun _ => -2, fun _ => -1⟩ : Iv ℚ 1).upper 0) 0 := by
  refine ⟨_, a_relu_np_eval (⟨fun _ => -2, fun _ => -1⟩ : Iv ℚ 1)
    (fun i => by norm_num), ?_, ?_, ?_, ?_, ?_⟩ <;>
    simp only [] <;> norm_num [max_def]

/-- C7 (amended): the lazy realization's op_relu is exactly
elementwise max(input, 0), reproducing the three reference examples;
the eager realization does not supply a relu primitive, and the
a_relu fallback (input + abs(input)) * 0.5 returns a sound enclosure
of max(input, 0) for every valid interval, but not always an equal
one. -/
theorem C7_relu_amended (n : ℕ) (x : Iv ℚ n) (hx : x.valid) :
    (∀ i, (TheanoInterval.op_relu x).lower i = Max.max (x.lower i) 0 ∧
      (TheanoInterval.op_relu x).upper i = Max.max (x.upper i) 0) ∧
    a_relu_theano (⟨fun _ => -2, fun _ => -1⟩ : Iv ℚ 1) =
      (⟨fun _ => 0, fun _ => 0⟩ : Iv ℚ 1) ∧
    a_relu_theano (⟨fun _ => -1, fun _ => 1⟩ : Iv ℚ 1) =
      (⟨fun _ => 0, fun _ => 1⟩ : Iv ℚ 1) ∧
    a_relu_theano (⟨fun _ => 1, fun _ => 2⟩ : Iv ℚ 1) =
      (⟨fun _ => 1, fun _ => 2⟩ : Iv ℚ 1) ∧
    (∃ s, a_relu_np x = some s ∧ ∀ i,
      s.lower i ≤ Max.max (x.lower i) 0 ∧
      Max.max (x.upper i) 0 ≤ s.upper i) := by
  refine ⟨fun i => ⟨rfl, rfl⟩, by decide, by decide, by decide, ?_⟩
  refine ⟨_, a_relu_np_eval x hx, ?_⟩
  intro i
  constructor
  · show (x.lower i +
      (if 0 < x.lower i then x.lower i
       else if x.upper i < 0 then -x.upper i else 0)) * (1 / 2) ≤ _
    have hm1 : x.lower i ≤ Max.max (x.lower i) 0 := le_max_left _ _
    have hm2 : (0 : ℚ) ≤ Max.max (x.lower i) 0 := le_max_right _ _
    by_cases h1 : 0 < x.lower i
    · rw [if_pos h1]
      linarith
    · rw [if_neg h1]
      push_neg at h1
      by_cases h2 : x.upper i < 0
      · rw [if_pos h2]
        have := hx i
        linarith
      · rw [if_neg h2]
        linarith
  · show _ ≤ (x.upper i + Max.max (-x.lower i) (x.upper i)) * (1 / 2)
    have hm1 : x.upper i ≤ Max.max (-x.lower i) (x.upper i) := le_max_right _ _
    have hm2 : -x.lower i ≤ Max.max (-x.lower i) (x.upper i) := le_max_left _ _
    have := hx i
    apply max_le <;> linarith

/-- Witness for C7 (amended) at the concrete valid interval [-4, 2]. -/
theorem C7_relu_amended_witness :
    Iv.valid (⟨fun _ => -4, fun _ => 2⟩ : Iv ℚ 1) ∧
    ((∀ i, (TheanoInterval.op_relu (⟨fun _ => -4, fun _ => 2⟩ : Iv ℚ 1)).lower i =
        Max.max ((⟨fun _ => -4, fun _ => 2⟩ : Iv ℚ 1).lower i) 0 ∧
      (TheanoInterval.op_relu (⟨fun _ => -4, fun _ => 2⟩ : Iv ℚ 1)).upper i =
        Max.max ((⟨fun _ => -4, fun _ => 2⟩ : Iv ℚ 1).upper i) 0) ∧
    a_relu_theano (⟨fun _ => -2, fun _ => -1⟩ : Iv ℚ 1) =
      (⟨fun _ => 0, fun _ => 0⟩ : Iv ℚ 1) ∧
    a_relu_theano (⟨fun _ => -1, fun _ => 1⟩ : Iv ℚ 1) =
      (⟨fun _ => 0, fun _ => 1⟩ : Iv ℚ 1) ∧
    a_relu_theano (⟨fun _ => 1, fun _ => 2⟩ : Iv ℚ 1) =
      (⟨fun _ => 1, fun _ => 2⟩ : Iv ℚ 1) ∧
    (∃ s, a_relu_np (⟨fun _ => -4, fun _ => 2⟩ : Iv ℚ 1) = some s ∧ ∀ i,
      s.lower i ≤ Max.max ((⟨fun _ => -4, fun _ => 2⟩ : Iv ℚ 1).lower i) 0 ∧
      Max.max ((⟨fun _ => -4, fun _ => 2⟩ : Iv ℚ 1).upper i) 0 ≤ s.upper i)) :=
  ⟨by decide, C7_relu_amended 1 (⟨fun _ => -4, fun _ => 2⟩ : Iv ℚ 1) (by decide)⟩

/-- IEEE-style float value for the cases the claims depend on: NaN,
the two infinities, and exact finite values. Rounding plays no role in
the claims settled with this model; division by zero, NaN propagation
and NaN comparisons are modelled exactly. -/
inductive Flt where
  | nan : Flt
  | inf : Flt
  | ninf : Flt
  | fin : ℚ → Flt
deriving DecidableEq

namespace Flt

/-- Float comparison <=; any comparison with NaN is false. -/
def fle : Flt → Flt → Bool
  | nan, _ => false
  | _, nan => false
  | ninf, _ => true
  | inf, inf => true
  | inf, _ => false
  | fin _, inf => true
  | fin _, ninf => false
  | fin x, fin y => decide (x ≤ y)

/-- Float comparison >; any comparison with NaN is false. -/
def fgt : Flt → Flt → Bool
  | nan, _ => false
  | _, nan => false
  | inf, inf => false
  | inf, _ => true
  | ninf, _ => false
  | fin _, inf => false
  | fin _, ninf => true
  | fin x, fin y => decide (y < x)

/-- Subtraction of a finite rational (used by the constructor assert's
lower - 0.0001). -/
def subQ : Flt → ℚ → Flt
  | nan, _ => nan
  | inf, _ => inf
  | ninf, _ => ninf
  | fin x, e => fin (x - e)

/-- np.minimum: NaN-propagating elementwise minimum. -/
def fmin : Flt → Flt → Flt
  | nan, _ => nan
  | _, nan => nan
  | ninf, _ => ninf
  | _, ninf => ninf
  | inf, y => y
  | x, inf => x
  | fin x, fin y => fin (Min.min x y)

/-- np.maximum: NaN-propagating elementwise maximum. -/
def fmax : Flt → Flt → Flt
  | nan, _ => nan
  | _, nan => nan
  | inf, _ => inf
  | _, inf => inf
  | ninf, y => y
  | x, ninf => x
  | fin x, fin y => fin (Max.max x y)

/-- Float division with positive zeros: x/0 is NaN for x = 0 and a
signed infinity otherwise; inf/inf combinations are NaN. -/
def fdiv : Flt → Flt → Flt
  | nan, _ => nan
  | _, nan => nan
  | inf, inf => nan
  | inf, ninf => nan
  | ninf, inf => nan
  | ninf, ninf => nan
  | inf, fin y => if y < 0 then ninf else inf
  | ninf, fin y => if y < 0 then inf else ninf
  | fin _, inf => fin 0
  | fin _, ninf => fin 0
  | fin x, fin y =>
    if y = 0 then (if x = 0 then nan else if x < 0 then ninf else inf)
    else fin (x / y)

/-- np.reciprocal: 1/0 is +inf (positive zero), never NaN on finite
input. -/
def frecip : Flt → Flt
  | nan => nan
  | inf => fin 0
  | ninf => fin 0
  | fin x => if x = 0 then inf else fin x⁻¹

/-- Order embedding of the non-NaN floats into the extended rationals
(the value at NaN is irrelevant; every use excludes NaN). -/
def toW : Flt → WithBot (WithTop ℚ)
  | nan => ⊥
  | ninf => ⊥
  | inf => ((⊤ : WithTop ℚ) : WithBot (WithTop ℚ))
  | fin q => ((q : WithTop ℚ) : WithBot (WithTop ℚ))

theorem fle_iff_toW {x y : Flt} (hx : x ≠ nan) (hy : y ≠ nan) :
    fle x y = true ↔ toW x ≤ toW y := by
  cases x <;> cases y <;> simp_all [fle, toW]

theorem fmin_ne_nan {x y : Flt} (hx : x ≠ nan) (hy : y ≠ nan) :
    fmin x y ≠ nan := by
  cases x <;> cases y <;> simp_all [fmin]

theorem fmax_ne_nan {x y : Flt} (hx : x ≠ nan) (hy : y ≠ nan) :
    fmax x y ≠ nan := by
  cases x <;> cases y <;> simp_all [fmax]

theorem toW_fmin {x y : Flt} (hx : x ≠ nan) (hy : y ≠ nan) :
    toW (fmin x y) = Min.min (toW x) (toW y) := by
  cases x <;> cases y <;>
    simp_all [fmin, toW, min_def]
  split_ifs <;> simp_all

theorem toW_fmax {x y : Flt} (hx : x ≠ nan) (hy : y ≠ nan) :
    toW (fmax x y) = Max.max (toW x) (toW y) := by
  cases x <;> cases y <;>
    simp_all [fmax, toW, max_def]
  split_ifs <;> simp_all

theorem subQ_fle {x y : Flt} (hx : x ≠ nan) (hy : y ≠ nan) {e : ℚ}
    (he : 0 ≤ e) (h : toW x ≤ toW y) : fle (subQ x e) y = true := by
  cases x <;> cases y <;> simp_all [subQ, fle, toW]
  linarith

theorem fdiv_fin_ne_nan {x y : ℚ} (h : ¬(x = 0 ∧ y = 0)) :
    fdiv (fin x) (fin y) ≠ nan := by
  simp only [fdiv]
  split_ifs <;> simp_all

theorem frecip_fin_ne_nan (x : ℚ) : frecip (fin x) ≠ nan := by
  simp only [frecip]
  split_ifs <;> simp

end Flt

namespace NpIntervalF

/-- NpInterval.__init__ over the float model: the assert
(lower - 0.0001 <= upper).all() evaluated with float comparison
semantics (false on NaN), raising (none) when it fails. -/
def mkF? (l u : Fin n → Flt) : Option (Iv Flt n) :=
  if ∀ i, Flt.fle (Flt.subQ (l i) (1 / 10000)) (u i) = true
  then some ⟨l, u⟩ else none

theorem mkF?_eq_some {l u : Fin n → Flt}
    (h : ∀ i, Flt.fle (Flt.subQ (l i) (1 / 10000)) (u i) = true) :
    mkF? l u = some ⟨l, u⟩ := by
  unfold mkF?
  rw [if_pos h]

/-- NpInterval.__div__ over the float model: the four corner quotients
combined with NaN-propagating np.minimum / np.maximum, then the
constructor assert. -/
def divF (a b : Iv Flt n) : Option (Iv Flt n) :=
  mkF?
    (fun i => Flt.fmin
      (Flt.fmin (Flt.fdiv (a.lower i) (b.lower i))
                (Flt.fdiv (a.lower i) (b.upper i)))
      (Flt.fmin (Flt.fdiv (a.upper i) (b.lower i))
                (Flt.fdiv (a.upper i) (b.upper i))))
    (fun i => Flt.fmax
      (Flt.fmax (Flt.fdiv (a.lower i) (b.lower i))
                (Flt.fdiv (a.lower i) (b.upper i)))
      (Flt.fmax (Flt.fdiv (a.upper i) (b.lower i))
                (Flt.fdiv (a.upper i) (b.upper i))))

/-- NpInterval.reciprocal over the float model. -/
def reciprocalF (a : Iv Flt n) : Option (Iv Flt n) :=
  mkF?
    (fun i => Flt.fmin (Flt.frecip (a.upper i)) (Flt.frecip (a.lower i)))
    (fun i => Flt.fmax (Flt.frecip (a.upper i)) (Flt.frecip (a.lower i)))

end NpIntervalF

/-- TheanoInterval.reciprocal over the float model: swapped T.inv
nodes, with no constructor check and no zero guard (the guard in the
source is commented out). -/
def TheanoIntervalF.reciprocalF (a : Iv Flt n) : Iv Flt n :=
  ⟨fun i => Flt.frecip (a.upper i), fun i => Flt.frecip (a.lower i)⟩

/-- Counterexample for C4: dividend [0, 1] divided by the
zero-containing divisor [0, 1] has the 0/0 corner, whose NaN bound
makes the eager constructor assert fail, i.e. the operation raises
instead of returning infinities/NaNs. -/
theorem C4_div_zero_counterexample :
    Flt.fle ((⟨fun _ => Flt.fin 0, fun _ => Flt.fin 1⟩ : Iv Flt 1).lower 0)
        (Flt.fin 0) = true ∧
    Flt.fle (Flt.fin 0)
        ((⟨fun _ => Flt.fin 0, fun _ => Flt.fin 1⟩ : Iv Flt 1).upper 0) = true ∧
    NpIntervalF.divF (⟨fun _ => Flt.fin 0, fun _ => Flt.fin 1⟩ : Iv Flt 1)
      (⟨fun _ => Flt.fin 0, fun _ => Flt.fin 1⟩ : Iv Flt 1) = none := by
  refine ⟨by decide, by decide, ?_⟩
  decide

/-- C4 (amended): division and reciprocal have no zero-containment
guard. For finite-valued intervals with a zero-containing divisor the
eager division returns (does not raise) whatever infinite corner
quotients arise, except when a dividend endpoint 0 meets a divisor
endpoint 0: that 0/0 corner is NaN and the constructor assert then
raises. The eager reciprocal never raises on finite input (1/0 is
+inf, never NaN), and the lazy reciprocal performs no check at all,
yielding the infinity the arithmetic produces at a zero endpoint. -/
theorem C4_unguarded_zero_division_amended (n : ℕ) (a b : Iv Flt n)
    (hfa : ∀ i, (∃ q, a.lower i = Flt.fin q) ∧ (∃ q, a.upper i = Flt.fin q))
    (hfb : ∀ i, (∃ q, b.lower i = Flt.fin q) ∧ (∃ q, b.upper i = Flt.fin q))
    (_hz : ∀ i, Flt.fle (b.lower i) (Flt.fin 0) = true ∧
               Flt.fle (Flt.fin 0) (b.upper i) = true)
    (h00 : ∀ i, ¬((a.lower i = Flt.fin 0 ∨ a.upper i = Flt.fin 0) ∧
                  (b.lower i = Flt.fin 0 ∨ b.upper i = Flt.fin 0))) :
    (∃ r, NpIntervalF.divF a b = some r) ∧
    (∃ r, NpIntervalF.reciprocalF a = some r) ∧
    (∀ v : Iv Flt n, ∀ i, v.upper i = Flt.fin 0 →
      (TheanoIntervalF.reciprocalF v).lower i = Flt.inf) := by
  refine ⟨?_, ?_, ?_⟩
  · unfold NpIntervalF.divF
    refine ⟨_, NpIntervalF.mkF?_eq_some ?_⟩
    intro i
    obtain ⟨⟨qal, hal⟩, ⟨qau, hau⟩⟩ := hfa i
    obtain ⟨⟨qbl, hbl⟩, ⟨qbu, hbu⟩⟩ := hfb i
    have h1 : Flt.fdiv (a.lower i) (b.lower i) ≠ Flt.nan := by
      rw [hal, hbl]
      apply Flt.fdiv_fin_ne_nan
      rintro ⟨hx, hy⟩
      exact h00 i ⟨Or.inl (by rw [hal, hx]), Or.inl (by rw [hbl, hy])⟩
    have h2 : Flt.fdiv (a.lower i) (b.upper i) ≠ Flt.nan := by
      rw [hal, hbu]
      apply Flt.fdiv_fin_ne_nan
      rintro ⟨hx, hy⟩
      exact h00 i ⟨Or.inl (by rw [hal, hx]), Or.inr (by rw [hbu, hy])⟩
    have h3 : Flt.fdiv (a.upper i) (b.lower i) ≠ Flt.nan := by
      rw [hau, hbl]
      apply Flt.fdiv_fin_ne_nan
      rintro ⟨hx, hy⟩
      exact h00 i ⟨Or.inr (by rw [hau, hx]), Or.inl (by rw [hbl, hy])⟩
    have h4 : Flt.fdiv (a.upper i) (b.upper i) ≠ Flt.nan := by
      rw [hau, hbu]
      apply Flt.fdiv_fin_ne_nan
      rintro ⟨hx, hy⟩
      exact h00 i ⟨Or.inr (by rw [hau, hx]), Or.inr (by rw [hbu, hy])⟩
    have h12 := Flt.fmin_ne_nan h1 h2
    have h34 := Flt.fmin_ne_nan h3 h4
    have h12x := Flt.fmax_ne_nan h1 h2
    have h34x := Flt.fmax_ne_nan h3 h4
    apply Flt.subQ_fle (Flt.fmin_ne_nan h12 h34) (Flt.fmax_ne_nan h12x h34x)
      (by norm_num)
    rw [Flt.toW_fmin h12 h34, Flt.toW_fmin h1 h2, Flt.toW_fmin h3 h4,
      Flt.toW_fmax h12x h34x, Flt.toW_fmax h1 h2, Flt.toW_fmax h3 h4]
    exact min4_le_max4
  · unfold NpIntervalF.reciprocalF
    refine ⟨_, NpIntervalF.mkF?_eq_some ?_⟩
    intro i
    obtain ⟨⟨qal, hal⟩, ⟨qau, hau⟩⟩ := hfa i
    have h1 : Flt.frecip (a.upper i) ≠ Flt.nan := by
      rw [hau]
      exact Flt.frecip_fin_ne_nan _
    have h2 : Flt.frecip (a.lower i) ≠ Flt.nan := by
      rw [hal]
      exact Flt.frecip_fin_ne_nan _
    apply Flt.subQ_fle (Flt.fmin_ne_nan h1 h2) (Flt.fmax_ne_nan h1 h2)
      (by norm_num)
    rw [Flt.toW_fmin h1 h2, Flt.toW_fmax h1 h2]
    exact min_le_max
  · intro v i hv
    simp [TheanoIntervalF.reciprocalF, hv, Flt.frecip]

/-- Witness for C4 (amended) at a finite dividend [1, 2] and the
zero-containing divisor [-1, 1]. -/
theorem C4_unguarded_zero_division_amended_witness :
    (∀ i : Fin 1,
      (∃ q, (⟨fun _ => Flt.fin 1, fun _ => Flt.fin 2⟩ : Iv Flt 1).lower i =
        Flt.fin q) ∧
      (∃ q, (⟨fun _ => Flt.fin 1, fun _ => Flt.fin 2⟩ : Iv Flt 1).upper i =
        Flt.fin q)) ∧
    (∀ i : Fin 1,
      (∃ q, (⟨fun _ => Flt.fin (-1), fun _ => Flt.fin 1⟩ : Iv Flt 1).lower i =
        Flt.fin q) ∧
      (∃ q, (⟨fun _ => Flt.fin (-1), fun _ => Flt.fin 1⟩ : Iv Flt 1).upper i =
        Flt.fin q)) ∧
    ((∃ r, NpIntervalF.divF (⟨fun _ => Flt.fin 1, fun _ => Flt.fin 2⟩ : Iv Flt 1)
        (⟨fun _ => Flt.fin (-1), fun _ => Flt.fin 1⟩ : Iv Flt 1) = some r) ∧
      (∃ r, NpIntervalF.reciprocalF
        (⟨fun _ => Flt.fin 1, fun _ => Flt.fin 2⟩ : Iv Flt 1) = some r) ∧
      (∀ v : Iv Flt 1, ∀ i, v.upper i = Flt.fin 0 →
        (TheanoIntervalF.reciprocalF v).lower i = Flt.inf)) :=
  ⟨fun i => ⟨⟨1, rfl⟩, ⟨2, rfl⟩⟩, fun i => ⟨⟨-1, rfl⟩, ⟨1, rfl⟩⟩,
    C4_unguarded_zero_division_amended 1
      (⟨fun _ => Flt.fin 1, fun _ => Flt.fin 2⟩ : Iv Flt 1)
      (⟨fun _ => Flt.fin (-1), fun _ => Flt.fin 1⟩ : Iv Flt 1)
      (fun i => ⟨⟨1, rfl⟩, ⟨2, rfl⟩⟩) (fun i => ⟨⟨-1, rfl⟩, ⟨1, rfl⟩⟩)
      (by decide) (by decide)⟩

namespace Flt

theorem fgt_iff_toW {x y : Flt} (hx : x ≠ nan) (hy : y ≠ nan) :
    fgt x y = true ↔ toW y < toW x := by
  cases x <;> cases y <;>
    simp_all [fgt, toW, WithBot.coe_lt_coe, WithTop.coe_lt_top,
      lt_top_iff_ne_top]

end Flt

/-- Python 2 comparison lower_val > upper_val where either side may be
None: None compares smaller than every number, so the comparison is
true exactly when the left side is a number and the right side is
None or a smaller number. -/
def pyGt : Option Flt → Option Flt → Bool
  | none, _ => false
  | some _, none => true
  | some x, some y => Flt.fgt x y

theorem mkF?_some_eq {l u : Fin n → Flt} {r : Iv Flt n}
    (h : NpIntervalF.mkF? l u = some r) : r = ⟨l, u⟩ := by
  unfold NpIntervalF.mkF? at h
  split_ifs at h
  cases h
  rfl

/-- NpInterval.from_shape over the float model: substitutes the
neutral or default preset for omitted bounds, raises ValueError when
the effective lower exceeds the effective upper unless the pair is
the canonical empty interval (+inf, -inf), then builds the interval
through the constructor assert. The preset constants are passed as
parameters (modelled from the spec: the base-class preset constants
are not under src/; the spec makes the neutral pair the maximally
wide one). -/
def NpIntervalF.from_shape (n : ℕ) (NL NU DL DU : Flt) (neutral : Bool)
    (lower_val upper_val : Option Flt) : Option (Iv Flt n) :=
  if Flt.fgt (lower_val.getD (if neutral then NL else DL))
        (upper_val.getD (if neutral then NU else DU)) = true ∧
     ¬(lower_val.getD (if neutral then NL else DL) = Flt.inf ∧
       upper_val.getD (if neutral then NU else DU) = Flt.ninf)
  then none
  else NpIntervalF.mkF?
    (fun _ => lower_val.getD (if neutral then NL else DL))
    (fun _ => upper_val.getD (if neutral then NU else DU))

/-- TheanoInterval.from_shape over the float model: performs the
lower_val > upper_val check BEFORE substituting defaults (a Python 2
comparison in which a number always exceeds None), then substitutes
the presets and stores the bounds with no constructor check. -/
def TheanoIntervalF.from_shape (n : ℕ) (NL NU DL DU : Flt) (neutral : Bool)
    (lower_val upper_val : Option Flt) : Option (Iv Flt n) :=
  if pyGt lower_val upper_val = true ∧
     (lower_val ≠ some Flt.inf ∨ upper_val ≠ some Flt.ninf)
  then none
  else some ⟨fun _ => lower_val.getD (if neutral then NL else DL),
             fun _ => upper_val.getD (if neutral then NU else DU)⟩

/-- Counterexample for C9: the eager from_shape on the canonical empty
pair (+inf, -inf) passes its own ValueError escape but is then
rejected by the constructor assert, so the call fails although the
claim says it returns; and the lazy from_shape fails whenever
lower_val is supplied and upper_val is left to its default (Python 2
makes number > None true), here with lower_val 0 and the maximally
wide neutral upper default +inf, although the claim says the call
succeeds with the defaulted pair. -/
theorem C9_from_shape_counterexample :
    NpIntervalF.from_shape 1 Flt.ninf Flt.inf (Flt.fin 0) (Flt.fin 1) true
      (some Flt.inf) (some Flt.ninf) = none ∧
    TheanoIntervalF.from_shape 1 Flt.ninf Flt.inf (Flt.fin 0) (Flt.fin 1) true
      (some (Flt.fin 0)) none = none := by
  constructor <;> decide

/-- C9 (amended): with the presets modelled from the spec (neutral is
the maximally wide pair (-inf, +inf), the default pair is a finite
pair) and non-NaN arguments, the eager from_shape on a nonempty shape
fails if and only if the effective (default-substituted) lower value
exceeds the effective upper value — the canonical empty pair
(+inf, -inf) escapes the explicit ValueError only to be rejected by
the constructor assert — and otherwise fills the shape with the
effective pair; the lazy from_shape compares the raw arguments before
substituting defaults (number > None being true in Python 2), so it
fails exactly when lower_val is supplied and upper_val is omitted or
smaller, except for the supplied canonical pair, and otherwise fills
the shape with the effective pair. -/
theorem C9_from_shape_amended (n : ℕ) (hn : 0 < n) (NL NU DL DU : Flt)
    (neutral : Bool) (lv uv : Option Flt)
    (hNL : NL = Flt.ninf) (hNU : NU = Flt.inf)
    (hDL : ∃ q, DL = Flt.fin q) (hDU : ∃ q, DU = Flt.fin q)
    (hlv : ∀ x, lv = some x → x ≠ Flt.nan)
    (huv : ∀ x, uv = some x → x ≠ Flt.nan) :
    (NpIntervalF.from_shape n NL NU DL DU neutral lv uv = none ↔
      Flt.fgt (lv.getD (if neutral then NL else DL))
              (uv.getD (if neutral then NU else DU)) = true) ∧
    (∀ r, NpIntervalF.from_shape n NL NU DL DU neutral lv uv = some r →
      r = ⟨fun _ => lv.getD (if neutral then NL else DL),
           fun _ => uv.getD (if neutral then NU else DU)⟩) ∧
    (TheanoIntervalF.from_shape n NL NU DL DU neutral lv uv = none ↔
      ∃ x, lv = some x ∧
        (uv = none ∨ ∃ y, uv = some y ∧ Flt.fgt x y = true) ∧
        ¬(x = Flt.inf ∧ uv = some Flt.ninf)) ∧
    (∀ r, TheanoIntervalF.from_shape n NL NU DL DU neutral lv uv = some r →
      r = ⟨fun _ => lv.getD (if neutral then NL else DL),
           fun _ => uv.getD (if neutral then NU else DU)⟩) := by
  have hlvE : lv.getD (if neutral then NL else DL) ≠ Flt.nan := by
    cases lv with
    | some x => exact hlv x rfl
    | none =>
      cases neutral
      · obtain ⟨q, hq⟩ := hDL
        simp [hq]
      · simp [hNL]
  have huvE : uv.getD (if neutral then NU else DU) ≠ Flt.nan := by
    cases uv with
    | some x => exact huv x rfl
    | none =>
      cases neutral
      · obtain ⟨q, hq⟩ := hDU
        simp [hq]
      · simp [hNU]
  refine ⟨?_, ?_, ?_, ?_⟩
  · unfold NpIntervalF.from_shape
    constructor
    · intro h
      by_cases hc : Flt.fgt (lv.getD (if neutral then NL else DL))
            (uv.getD (if neutral then NU else DU)) = true ∧
          ¬(lv.getD (if neutral then NL else DL) = Flt.inf ∧
            uv.getD (if neutral then NU else DU) = Flt.ninf)
      · exact hc.1
      · rw [if_neg hc] at h
        by_contra hfgt
        have hle : Flt.toW (lv.getD (if neutral then NL else DL)) ≤
            Flt.toW (uv.getD (if neutral then NU else DU)) := by
          refine le_of_not_lt fun hlt => hfgt ?_
          exact (Flt.fgt_iff_toW hlvE huvE).mpr hlt
        rw [NpIntervalF.mkF?_eq_some
          (fun i => Flt.subQ_fle hlvE huvE (by norm_num) hle)] at h
        cases h
    · intro hfgt
      by_cases hc : Flt.fgt (lv.getD (if neutral then NL else DL))
            (uv.getD (if neutral then NU else DU)) = true ∧
          ¬(lv.getD (if neutral then NL else DL) = Flt.inf ∧
            uv.getD (if neutral then NU else DU) = Flt.ninf)
      · rw [if_pos hc]
      · have hpair : lv.getD (if neutral then NL else DL) = Flt.inf ∧
            uv.getD (if neutral then NU else DU) = Flt.ninf := by
          by_contra hnp
          exact hc ⟨hfgt, hnp⟩
        rw [if_neg hc]
        unfold NpIntervalF.mkF?
        rw [if_neg]
        intro hall
        have hone := hall ⟨0, hn⟩
        rw [hpair.1, hpair.2] at hone
        simp [Flt.subQ, Flt.fle] at hone
  · intro r h
    unfold NpIntervalF.from_shape at h
    by_cases hc : Flt.fgt (lv.getD (if neutral then NL else DL))
          (uv.getD (if neutral then NU else DU)) = true ∧
        ¬(lv.getD (if neutral then NL else DL) = Flt.inf ∧
          uv.getD (if neutral then NU else DU) = Flt.ninf)
    · rw [if_pos hc] at h
      cases h
    · rw [if_neg hc] at h
      exact mkF?_some_eq h
  · unfold TheanoIntervalF.from_shape
    by_cases hc : pyGt lv uv = true ∧
        (lv ≠ some Flt.inf ∨ uv ≠ some Flt.ninf)
    · rw [if_pos hc]
      simp only [true_iff]
      obtain ⟨hgt, hor⟩ := hc
      cases lv with
      | none => simp [pyGt] at hgt
      | some x =>
        refine ⟨x, rfl, ?_, ?_⟩
        · cases uv with
          | none => exact Or.inl rfl
          | some y => exact Or.inr ⟨y, rfl, hgt⟩
        · rintro ⟨hx, hy⟩
          rcases hor with hor | hor
          · exact hor (by rw [hx])
          · exact hor hy
    · rw [if_neg hc]
      simp only [reduceCtorEq, false_iff]
      rintro ⟨x, hx, hcase, hne⟩
      subst hx
      apply hc
      constructor
      · rcases hcase with hcase | ⟨y, hy, hgt⟩
        · subst hcase
          rfl
        · subst hy
          exact hgt
      · rcases hcase with hcase | ⟨y, hy, hgt⟩
        · subst hcase
          right
          intro hcon
          cases hcon
        · subst hy
          by_cases hx2 : x = Flt.inf
          · right
            intro hcon
            exact hne ⟨hx2, hcon⟩
          · left
            intro hcon
            injection hcon with h3
            exact hx2 h3
  · intro r h
    unfold TheanoIntervalF.from_shape at h
    by_cases hc : pyGt lv uv = true ∧
        (lv ≠ some Flt.inf ∨ uv ≠ some Flt.ninf)
    · rw [if_pos hc] at h
      cases h
    · rw [if_neg hc] at h
      injection h with h2
      exact h2.symm
/-- Witness for C9 (amended) at the neutral preset with both bounds
omitted on a one-element shape. -/
theorem C9_from_shape_amended_witness :
    0 < 1 ∧
    Flt.ninf = Flt.ninf ∧
    Flt.inf = Flt.inf ∧
    (∃ q, Flt.fin 0 = Flt.fin q) ∧
    (∃ q, Flt.fin 1 = Flt.fin q) ∧
    ((NpIntervalF.from_shape 1 Flt.ninf Flt.inf (Flt.fin 0) (Flt.fin 1) true
        none none = none ↔
      Flt.fgt ((none : Option Flt).getD
          (if true then Flt.ninf else Flt.fin 0))
        ((none : Option Flt).getD
          (if true then Flt.inf else Flt.fin 1)) = true) ∧
    (∀ r, NpIntervalF.from_shape 1 Flt.ninf Flt.inf (Flt.fin 0) (Flt.fin 1)
        true none none = some r →
      r = ⟨fun _ => (none : Option Flt).getD
            (if true then Flt.ninf else Flt.fin 0),
          fun _ => (none : Option Flt).getD
            (if true then Flt.inf else Flt.fin 1)⟩) ∧
    (TheanoIntervalF.from_shape 1 Flt.ninf Flt.inf (Flt.fin 0) (Flt.fin 1)
        true none none = none ↔
      ∃ x, (none : Option Flt) = some x ∧
        ((none : Option Flt) = none ∨
          ∃ y, (none : Option Flt) = some y ∧ Flt.fgt x y = true) ∧
        ¬(x = Flt.inf ∧ (none : Option Flt) = some Flt.ninf)) ∧
    (∀ r, TheanoIntervalF.from_shape 1 Flt.ninf Flt.inf (Flt.fin 0)
        (Flt.fin 1) true none none = some r →
      r = ⟨fun _ => (none : Option Flt).getD
            (if true then Flt.ninf else Flt.fin 0),
          fun _ => (none : Option Flt).getD
            (if true then Flt.inf else Flt.fin 1)⟩)) :=
  ⟨by decide, rfl, rfl, ⟨0, rfl⟩, ⟨1, rfl⟩,
    C9_from_shape_amended 1 (by decide) Flt.ninf Flt.inf (Flt.fin 0)
      (Flt.fin 1) true none none rfl rfl ⟨0, rfl⟩ ⟨1, rfl⟩
      (fun x hx => by cases hx) (fun x hx => by cases hx)⟩

namespace TheanoInterval

/-- The norm function of TheanoInterval.op_norm at one element:
norm(x, c) = x / (c + alpha * x^2) ^ beta, where alpha is the
already-per-element alpha (the source divides alpha by local_range
before use) and c is the element of s * alpha + k, the k-plus-scaled
neighbor-square-sum interval. -/
noncomputable def norm (a b x c : ℝ) : ℝ := x / (c + a * x ^ 2) ^ b

/-- x_extr_from_c of op_norm: sqrt(c / ((2*beta - 1) * alpha)). -/
noncomputable def x_extr_from_c (a b c : ℝ) : ℝ :=
  Real.sqrt (c / ((2 * b - 1) * a))

/-- c_extr_from_x of op_norm: sqr(x) * ((2*beta - 1) * alpha). -/
def c_extr_from_x (a b x : ℝ) : ℝ := x ^ 2 * ((2 * b - 1) * a)

end TheanoInterval

/-- One conditional minimum step of the op_norm candidate fold:
T.switch(cond, T.minimum(m, v), m). -/
def condMin (p : Prop) [Decidable p] (m v : ℝ) : ℝ :=
  if p then Min.min m v else m

/-- One conditional maximum step of the op_norm candidate fold. -/
def condMax (p : Prop) [Decidable p] (m v : ℝ) : ℝ :=
  if p then Max.max m v else m

theorem condMin_le_base (p : Prop) [Decidable p] (m v : ℝ) :
    condMin p m v ≤ m := by
  unfold condMin
  split_ifs
  · exact min_le_left _ _
  · exact le_refl m

theorem condMin_le_val {p : Prop} [Decidable p] (hp : p) (m v : ℝ) :
    condMin p m v ≤ v := by
  unfold condMin
  rw [if_pos hp]
  exact min_le_right _ _

theorem base_le_condMax (p : Prop) [Decidable p] (m v : ℝ) :
    m ≤ condMax p m v := by
  unfold condMax
  split_ifs
  · exact le_max_left _ _
  · exact le_refl m

theorem val_le_condMax {p : Prop} [Decidable p] (hp : p) (m v : ℝ) :
    v ≤ condMax p m v := by
  unfold condMax
  rw [if_pos hp]
  exact le_max_right _ _

namespace TheanoInterval

/-- The lower bound computed by op_norm at one element: the minimum
over the four corners of the (x, c) rectangle, refined in source
order by each conditionally-in-range extremum candidate. -/
noncomputable def opNormLower (a b xl xu cl cu : ℝ) : ℝ :=
  condMin (cl ≤ c_extr_from_x a b xu ∧ c_extr_from_x a b xu ≤ cu)
    (condMin (cl ≤ c_extr_from_x a b xl ∧ c_extr_from_x a b xl ≤ cu)
      (condMin (xl ≤ -x_extr_from_c a b cu ∧ -x_extr_from_c a b cu ≤ xu)
        (condMin (xl ≤ -x_extr_from_c a b cl ∧ -x_extr_from_c a b cl ≤ xu)
          (condMin (xl ≤ x_extr_from_c a b cu ∧ x_extr_from_c a b cu ≤ xu)
            (condMin (xl ≤ x_extr_from_c a b cl ∧ x_extr_from_c a b cl ≤ xu)
              (condMin (xl ≤ 0 ∧ (0 : ℝ) ≤ xu)
                (condMin (xl ≤ 0 ∧ (0 : ℝ) ≤ xu)
                  (Min.min (Min.min (norm a b xl cl) (norm a b xl cu))
                           (Min.min (norm a b xu cl) (norm a b xu cu)))
                  (norm a b 0 cl))
                (norm a b 0 cu))
              (norm a b (x_extr_from_c a b cl) cl))
            (norm a b (x_extr_from_c a b cu) cu))
          (norm a b (-x_extr_from_c a b cl) cl))
        (norm a b (-x_extr_from_c a b cu) cu))
      (norm a b xl (c_extr_from_x a b xl)))
    (norm a b xu (c_extr_from_x a b xu))

/-- The upper bound computed by op_norm at one element. -/
noncomputable def opNormUpper (a b xl xu cl cu : ℝ) : ℝ :=
  condMax (cl ≤ c_extr_from_x a b xu ∧ c_extr_from_x a b xu ≤ cu)
    (condMax (cl ≤ c_extr_from_x a b xl ∧ c_extr_from_x a b xl ≤ cu)
      (condMax (xl ≤ -x_extr_from_c a b cu ∧ -x_extr_from_c a b cu ≤ xu)
        (condMax (xl ≤ -x_extr_from_c a b cl ∧ -x_extr_from_c a b cl ≤ xu)
          (condMax (xl ≤ x_extr_from_c a b cu ∧ x_extr_from_c a b cu ≤ xu)
            (condMax (xl ≤ x_extr_from_c a b cl ∧ x_extr_from_c a b cl ≤ xu)
              (condMax (xl ≤ 0 ∧ (0 : ℝ) ≤ xu)
                (condMax (xl ≤ 0 ∧ (0 : ℝ) ≤ xu)
                  (Max.max (Max.max (norm a b xl cl) (norm a b xl cu))
                           (Max.max (norm a b xu cl) (norm a b xu cu)))
                  (norm a b 0 cl))
                (norm a b 0 cu))
              (norm a b (x_extr_from_c a b cl) cl))
            (norm a b (x_extr_from_c a b cu) cu))
          (norm a b (-x_extr_from_c a b cl) cl))
        (norm a b (-x_extr_from_c a b cu) cu))
      (norm a b xl (c_extr_from_x a b xl)))
    (norm a b xu (c_extr_from_x a b xu))

end TheanoInterval

theorem norm_hasDerivAt (a b c₀ : ℝ) (ha : 0 < a) (hc : 0 < c₀) (x : ℝ) :
    HasDerivAt (fun y => TheanoInterval.norm a b y c₀)
      ((c₀ + a * x ^ 2) ^ (-b - 1) * (c₀ + a * (1 - 2 * b) * x ^ 2)) x := by
  have hupos : 0 < c₀ + a * x ^ 2 := by nlinarith [sq_nonneg x]
  have h1 : HasDerivAt (fun y : ℝ => y ^ 2) (2 * x) x := by
    simpa using hasDerivAt_pow 2 x
  have hu : HasDerivAt (fun y : ℝ => c₀ + a * y ^ 2) (a * (2 * x)) x :=
    (h1.const_mul a).const_add c₀
  have hd : HasDerivAt (fun y : ℝ => (c₀ + a * y ^ 2) ^ (-b))
      (a * (2 * x) * (-b) * (c₀ + a * x ^ 2) ^ (-b - 1)) x :=
    hu.rpow_const (Or.inl (ne_of_gt hupos))
  have hmul : HasDerivAt (fun y : ℝ => y * (c₀ + a * y ^ 2) ^ (-b))
      (1 * (c₀ + a * x ^ 2) ^ (-b) +
        x * (a * (2 * x) * (-b) * (c₀ + a * x ^ 2) ^ (-b - 1))) x :=
    (hasDerivAt_id x).mul hd
  have hfun : (fun y : ℝ => y * (c₀ + a * y ^ 2) ^ (-b)) =
      fun y => TheanoInterval.norm a b y c₀ := by
    funext y
    have hypos : 0 < c₀ + a * y ^ 2 := by nlinarith [sq_nonneg y]
    simp only [TheanoInterval.norm]
    rw [Real.rpow_neg (le_of_lt hypos), div_eq_mul_inv]
  rw [hfun] at hmul
  have heq : 1 * (c₀ + a * x ^ 2) ^ (-b) +
      x * (a * (2 * x) * (-b) * (c₀ + a * x ^ 2) ^ (-b - 1)) =
      (c₀ + a * x ^ 2) ^ (-b - 1) * (c₀ + a * (1 - 2 * b) * x ^ 2) := by
    have h2 : (c₀ + a * x ^ 2) ^ (-b) =
        (c₀ + a * x ^ 2) ^ (-b - 1) * (c₀ + a * x ^ 2) := by
      rw [show (-b : ℝ) = (-b - 1) + 1 by ring, Real.rpow_add hupos,
        Real.rpow_one, show (-b - 1 + 1 - 1 : ℝ) = -b - 1 by ring]
    rw [h2]
    ring
  rw [heq] at hmul
  exact hmul

theorem norm_monotoneOn (a b c₀ : ℝ) (ha : 0 < a) (hc : 0 < c₀) (p q : ℝ)
    (hfac : ∀ y ∈ Set.Icc p q, 0 ≤ c₀ + a * (1 - 2 * b) * y ^ 2) :
    MonotoneOn (fun y => TheanoInterval.norm a b y c₀) (Set.Icc p q) := by
  have hderiv : ∀ y : ℝ, HasDerivAt (fun z => TheanoInterval.norm a b z c₀)
      ((c₀ + a * y ^ 2) ^ (-b - 1) * (c₀ + a * (1 - 2 * b) * y ^ 2)) y :=
    fun y => norm_hasDerivAt a b c₀ ha hc y
  apply monotoneOn_of_deriv_nonneg (convex_Icc p q)
  · exact (continuous_iff_continuousAt.mpr fun y =>
      (hderiv y).differentiableAt.continuousAt).continuousOn
  · intro y _hy
    exact (hderiv y).differentiableAt.differentiableWithinAt
  · intro y hy
    rw [(hderiv y).deriv]
    apply mul_nonneg
    · exact le_of_lt (Real.rpow_pos_of_pos (by nlinarith [sq_nonneg y]) _)
    · exact hfac y (interior_subset hy)

theorem norm_antitoneOn (a b c₀ : ℝ) (ha : 0 < a) (hc : 0 < c₀) (p q : ℝ)
    (hfac : ∀ y ∈ Set.Icc p q, c₀ + a * (1 - 2 * b) * y ^ 2 ≤ 0) :
    AntitoneOn (fun y => TheanoInterval.norm a b y c₀) (Set.Icc p q) := by
  have hderiv : ∀ y : ℝ, HasDerivAt (fun z => TheanoInterval.norm a b z c₀)
      ((c₀ + a * y ^ 2) ^ (-b - 1) * (c₀ + a * (1 - 2 * b) * y ^ 2)) y :=
    fun y => norm_hasDerivAt a b c₀ ha hc y
  apply antitoneOn_of_deriv_nonpos (convex_Icc p q)
  · exact (continuous_iff_continuousAt.mpr fun y =>
      (hderiv y).differentiableAt.continuousAt).continuousOn
  · intro y _hy
    exact (hderiv y).differentiableAt.differentiableWithinAt
  · intro y hy
    rw [(hderiv y).deriv]
    apply mul_nonpos_of_nonneg_of_nonpos
    · exact le_of_lt (Real.rpow_pos_of_pos (by nlinarith [sq_nonneg y]) _)
    · exact hfac y (interior_subset hy)

theorem norm_neg_x (a b c x : ℝ) :
    TheanoInterval.norm a b (-x) c = -TheanoInterval.norm a b x c := by
  simp only [TheanoInterval.norm]
  rw [neg_sq, neg_div]

theorem norm_edge_upper (a b c₀ : ℝ) (ha : 0 < a) (hc : 0 < c₀)
    {xl xu x : ℝ} (hx1 : xl ≤ x) (hx2 : x ≤ xu) :
    TheanoInterval.norm a b x c₀ ≤
      Max.max (TheanoInterval.norm a b xl c₀)
        (TheanoInterval.norm a b xu c₀) ∨
    (xl ≤ TheanoInterval.x_extr_from_c a b c₀ ∧
      TheanoInterval.x_extr_from_c a b c₀ ≤ xu ∧
      TheanoInterval.norm a b x c₀ ≤
        TheanoInterval.norm a b (TheanoInterval.x_extr_from_c a b c₀) c₀) := by
  by_cases hcase : (2 * b - 1) * a ≤ 0
  · left
    have hmono := norm_monotoneOn a b c₀ ha hc xl xu (fun y _ => by
      nlinarith [sq_nonneg y, mul_nonneg (neg_nonneg.mpr hcase) (sq_nonneg y)])
    exact le_trans
      (hmono ⟨hx1, hx2⟩ ⟨le_trans hx1 hx2, le_refl xu⟩ hx2) (le_max_right _ _)
  · push_neg at hcase
    have hdv : 0 < c₀ / ((2 * b - 1) * a) := div_pos hc hcase
    set xs := TheanoInterval.x_extr_from_c a b c₀ with hxs_def
    have hxs_pos : 0 < xs := Real.sqrt_pos.mpr hdv
    have hxs_sq : xs ^ 2 * ((2 * b - 1) * a) = c₀ := by
      rw [hxs_def]
      simp only [TheanoInterval.x_extr_from_c]
      rw [Real.sq_sqrt (le_of_lt hdv)]
      field_simp
    have hfac_mid : ∀ y ∈ Set.Icc (-xs) xs,
        0 ≤ c₀ + a * (1 - 2 * b) * y ^ 2 := by
      intro y hy
      have hysq : y ^ 2 ≤ xs ^ 2 := sq_le_sq' hy.1 hy.2
      nlinarith [mul_le_mul_of_nonneg_right hysq (le_of_lt hcase)]
    have hfac_right : ∀ t, ∀ y ∈ Set.Icc xs t,
        c₀ + a * (1 - 2 * b) * y ^ 2 ≤ 0 := by
      intro t y hy
      have h1 : xs ≤ y := hy.1
      have hysq : xs ^ 2 ≤ y ^ 2 := by nlinarith [hxs_pos]
      nlinarith [mul_le_mul_of_nonneg_right hysq (le_of_lt hcase)]
    have hfac_left : ∀ t, ∀ y ∈ Set.Icc t (-xs),
        c₀ + a * (1 - 2 * b) * y ^ 2 ≤ 0 := by
      intro t y hy
      have h1 : y ≤ -xs := hy.2
      have hysq : xs ^ 2 ≤ y ^ 2 := by nlinarith [hxs_pos]
      nlinarith [mul_le_mul_of_nonneg_right hysq (le_of_lt hcase)]
    by_cases hA : x ≤ -xs
    · left
      have hanti := norm_antitoneOn a b c₀ ha hc xl x
        (fun y hy => hfac_left xl y ⟨hy.1, le_trans hy.2 hA⟩)
      exact le_trans
        (hanti ⟨le_refl xl, hx1⟩ ⟨hx1, le_refl x⟩ hx1) (le_max_left _ _)
    · push_neg at hA
      by_cases hB : x ≤ xs
      · by_cases hC : xu ≤ xs
        · left
          have hmono := norm_monotoneOn a b c₀ ha hc (-xs) xs hfac_mid
          exact le_trans (hmono ⟨le_of_lt hA, hB⟩
            ⟨le_of_lt (lt_of_lt_of_le hA hx2), hC⟩ hx2) (le_max_right _ _)
        · push_neg at hC
          right
          refine ⟨le_trans hx1 hB, le_of_lt hC, ?_⟩
          have hmono := norm_monotoneOn a b c₀ ha hc (-xs) xs hfac_mid
          exact hmono ⟨le_of_lt hA, hB⟩
            ⟨by linarith [hxs_pos], le_refl xs⟩ hB
      · push_neg at hB
        by_cases hD : xl ≤ xs
        · right
          refine ⟨hD, le_trans (le_of_lt hB) hx2, ?_⟩
          have hanti := norm_antitoneOn a b c₀ ha hc xs x (hfac_right x)
          exact hanti ⟨le_refl xs, le_of_lt hB⟩
            ⟨le_of_lt hB, le_refl x⟩ (le_of_lt hB)
        · push_neg at hD
          left
          have hanti := norm_antitoneOn a b c₀ ha hc xl x
            (fun y hy => hfac_right x y ⟨le_trans (le_of_lt hD) hy.1, hy.2⟩)
          exact le_trans
            (hanti ⟨le_refl xl, hx1⟩ ⟨hx1, le_refl x⟩ hx1) (le_max_left _ _)

theorem norm_edge_lower (a b c₀ : ℝ) (ha : 0 < a) (hc : 0 < c₀)
    {xl xu x : ℝ} (hx1 : xl ≤ x) (hx2 : x ≤ xu) :
    Min.min (TheanoInterval.norm a b xl c₀) (TheanoInterval.norm a b xu c₀) ≤
      TheanoInterval.norm a b x c₀ ∨
    (xl ≤ -TheanoInterval.x_extr_from_c a b c₀ ∧
      -TheanoInterval.x_extr_from_c a b c₀ ≤ xu ∧
      TheanoInterval.norm a b (-TheanoInterval.x_extr_from_c a b c₀) c₀ ≤
        TheanoInterval.norm a b x c₀) := by
  have h := norm_edge_upper a b c₀ ha hc
    (neg_le_neg hx2 : -xu ≤ -x) (neg_le_neg hx1 : -x ≤ -xl)
  rcases h with h | ⟨h1, h2, h3⟩
  · left
    simp only [norm_neg_x] at h
    rw [max_neg_neg] at h
    have h4 := neg_le_neg_iff.mp h
    exact le_trans (le_of_eq (min_comm _ _)) h4
  · right
    refine ⟨by linarith, by linarith, ?_⟩
    rw [norm_neg_x] at h3
    rw [norm_neg_x]
    linarith

theorem norm_c_between (a b x cl cu c : ℝ) (ha : 0 < a) (hb : 0 < b)
    (hcl : 0 < cl) (hc1 : cl ≤ c) (hc2 : c ≤ cu) :
    Min.min (TheanoInterval.norm a b x cl) (TheanoInterval.norm a b x cu) ≤
      TheanoInterval.norm a b x c ∧
    TheanoInterval.norm a b x c ≤
      Max.max (TheanoInterval.norm a b x cl) (TheanoInterval.norm a b x cu) := by
  have hd1 : 0 < cl + a * x ^ 2 := by nlinarith [sq_nonneg x]
  have hdc : 0 < c + a * x ^ 2 := by nlinarith [sq_nonneg x]
  have hdu : 0 < cu + a * x ^ 2 := by nlinarith [sq_nonneg x]
  have hr1 : (cl + a * x ^ 2) ^ b ≤ (c + a * x ^ 2) ^ b :=
    Real.rpow_le_rpow (le_of_lt hd1) (by linarith) (le_of_lt hb)
  have hr2 : (c + a * x ^ 2) ^ b ≤ (cu + a * x ^ 2) ^ b :=
    Real.rpow_le_rpow (le_of_lt hdc) (by linarith) (le_of_lt hb)
  have hp1 : 0 < (cl + a * x ^ 2) ^ b := Real.rpow_pos_of_pos hd1 b
  have hpc : 0 < (c + a * x ^ 2) ^ b := Real.rpow_pos_of_pos hdc b
  have hpu : 0 < (cu + a * x ^ 2) ^ b := Real.rpow_pos_of_pos hdu b
  simp only [TheanoInterval.norm]
  rcases le_or_lt 0 x with hx | hx
  · constructor
    · refine le_trans (min_le_right _ _) ?_
      exact dle_pos hpu hpc (mul_le_mul_of_nonneg_left hr2 hx)
    · refine le_trans ?_ (le_max_left _ _)
      exact dle_pos hpc hp1 (mul_le_mul_of_nonneg_left hr1 hx)
  · constructor
    · refine le_trans (min_le_left _ _) ?_
      exact dle_pos hp1 hpc (mul_le_mul_of_nonpos_left hr1 (le_of_lt hx))
    · refine le_trans ?_ (le_max_right _ _)
      exact dle_pos hpc hpu (mul_le_mul_of_nonpos_left hr2 (le_of_lt hx))

/-- C5: the forward LRN bounds of TheanoInterval.op_norm are a sound
enclosure at every element: writing the per-element computation over
the (x, c) box (x the input interval, c the k-plus-scaled
neighbor-square-sum interval, alpha already divided by local_range),
the bounds obtained from the four rectangle corners and the
conditionally-in-range critical-point candidates of
norm(x, c) = x / (c + alpha x^2)^beta contain norm(x, c) for every
point (x, c) of the box, for positive alpha and beta and a positive
lower bound on c. -/
theorem C5_lrn_forward_enclosure (a b xl xu cl cu x c : ℝ)
    (ha : 0 < a) (hb : 0 < b) (hcl : 0 < cl)
    (hx1 : xl ≤ x) (hx2 : x ≤ xu) (hc1 : cl ≤ c) (hc2 : c ≤ cu) :
    TheanoInterval.opNormLower a b xl xu cl cu ≤
      TheanoInterval.norm a b x c ∧
    TheanoInterval.norm a b x c ≤
      TheanoInterval.opNormUpper a b xl xu cl cu := by
  have hcu : 0 < cu := lt_of_lt_of_le hcl (le_trans hc1 hc2)
  have hLbase : TheanoInterval.opNormLower a b xl xu cl cu ≤
      Min.min (Min.min (TheanoInterval.norm a b xl cl)
          (TheanoInterval.norm a b xl cu))
        (Min.min (TheanoInterval.norm a b xu cl)
          (TheanoInterval.norm a b xu cu)) := by
    simp only [TheanoInterval.opNormLower]
    exact le_trans (condMin_le_base _ _ _) (le_trans (condMin_le_base _ _ _)
      (le_trans (condMin_le_base _ _ _) (le_trans (condMin_le_base _ _ _)
      (le_trans (condMin_le_base _ _ _) (le_trans (condMin_le_base _ _ _)
      (le_trans (condMin_le_base _ _ _) (condMin_le_base _ _ _)))))))
  have hLm5 : (xl ≤ -TheanoInterval.x_extr_from_c a b cl ∧
      -TheanoInterval.x_extr_from_c a b cl ≤ xu) →
      TheanoInterval.opNormLower a b xl xu cl cu ≤
        TheanoInterval.norm a b (-TheanoInterval.x_extr_from_c a b cl) cl := by
    intro hp
    simp only [TheanoInterval.opNormLower]
    exact le_trans (condMin_le_base _ _ _) (le_trans (condMin_le_base _ _ _)
      (le_trans (condMin_le_base _ _ _) (condMin_le_val hp _ _)))
  have hLm6 : (xl ≤ -TheanoInterval.x_extr_from_c a b cu ∧
      -TheanoInterval.x_extr_from_c a b cu ≤ xu) →
      TheanoInterval.opNormLower a b xl xu cl cu ≤
        TheanoInterval.norm a b (-TheanoInterval.x_extr_from_c a b cu) cu := by
    intro hp
    simp only [TheanoInterval.opNormLower]
    exact le_trans (condMin_le_base _ _ _)
      (le_trans (condMin_le_base _ _ _) (condMin_le_val hp _ _))
  have hUbase : Max.max (Max.max (TheanoInterval.norm a b xl cl)
          (TheanoInterval.norm a b xl cu))
        (Max.max (TheanoInterval.norm a b xu cl)
          (TheanoInterval.norm a b xu cu)) ≤
      TheanoInterval.opNormUpper a b xl xu cl cu := by
    simp only [TheanoInterval.opNormUpper]
    exact le_trans (le_trans (le_trans (le_trans (le_trans (le_trans
      (le_trans (base_le_condMax _ _ _) (base_le_condMax _ _ _))
      (base_le_condMax _ _ _)) (base_le_condMax _ _ _))
      (base_le_condMax _ _ _)) (base_le_condMax _ _ _))
      (base_le_condMax _ _ _)) (base_le_condMax _ _ _)
  have hUm3 : (xl ≤ TheanoInterval.x_extr_from_c a b cl ∧
      TheanoInterval.x_extr_from_c a b cl ≤ xu) →
      TheanoInterval.norm a b (TheanoInterval.x_extr_from_c a b cl) cl ≤
        TheanoInterval.opNormUpper a b xl xu cl cu := by
    intro hp
    simp only [TheanoInterval.opNormUpper]
    exact le_trans (le_trans (le_trans (le_trans (le_trans
      (val_le_condMax hp _ _) (base_le_condMax _ _ _))
      (base_le_condMax _ _ _)) (base_le_condMax _ _ _))
      (base_le_condMax _ _ _)) (base_le_condMax _ _ _)
  have hUm4 : (xl ≤ TheanoInterval.x_extr_from_c a b cu ∧
      TheanoInterval.x_extr_from_c a b cu ≤ xu) →
      TheanoInterval.norm a b (TheanoInterval.x_extr_from_c a b cu) cu ≤
        TheanoInterval.opNormUpper a b xl xu cl cu := by
    intro hp
    simp only [TheanoInterval.opNormUpper]
    exact le_trans (le_trans (le_trans (le_trans
      (val_le_condMax hp _ _) (base_le_condMax _ _ _))
      (base_le_condMax _ _ _)) (base_le_condMax _ _ _))
      (base_le_condMax _ _ _)
  have hbr := norm_c_between a b x cl cu c ha hb hcl hc1 hc2
  constructor
  · have h_cl : TheanoInterval.opNormLower a b xl xu cl cu ≤
        TheanoInterval.norm a b x cl := by
      rcases norm_edge_lower a b cl ha hcl hx1 hx2 with h | ⟨h1, h2, h3⟩
      · refine le_trans (le_min ?_ ?_) h
        · exact le_trans hLbase
            (le_trans (min_le_left _ _) (min_le_left _ _))
        · exact le_trans hLbase
            (le_trans (min_le_right _ _) (min_le_left _ _))
      · exact le_trans (hLm5 ⟨h1, h2⟩) h3
    have h_cu : TheanoInterval.opNormLower a b xl xu cl cu ≤
        TheanoInterval.norm a b x cu := by
      rcases norm_edge_lower a b cu ha hcu hx1 hx2 with h | ⟨h1, h2, h3⟩
      · refine le_trans (le_min ?_ ?_) h
        · exact le_trans hLbase
            (le_trans (min_le_left _ _) (min_le_right _ _))
        · exact le_trans hLbase
            (le_trans (min_le_right _ _) (min_le_right _ _))
      · exact le_trans (hLm6 ⟨h1, h2⟩) h3
    exact le_trans (le_min h_cl h_cu) hbr.1
  · have h_cl : TheanoInterval.norm a b x cl ≤
        TheanoInterval.opNormUpper a b xl xu cl cu := by
      rcases norm_edge_upper a b cl ha hcl hx1 hx2 with h | ⟨h1, h2, h3⟩
      · refine le_trans h (max_le ?_ ?_)
        · exact le_trans
            (le_trans (le_max_left _ _) (le_max_left _ _)) hUbase
        · exact le_trans
            (le_trans (le_max_left _ _) (le_max_right _ _)) hUbase
      · exact le_trans h3 (hUm3 ⟨h1, h2⟩)
    have h_cu : TheanoInterval.norm a b x cu ≤
        TheanoInterval.opNormUpper a b xl xu cl cu := by
      rcases norm_edge_upper a b cu ha hcu hx1 hx2 with h | ⟨h1, h2, h3⟩
      · refine le_trans h (max_le ?_ ?_)
        · exact le_trans
            (le_trans (le_max_right _ _) (le_max_left _ _)) hUbase
        · exact le_trans
            (le_trans (le_max_right _ _) (le_max_right _ _)) hUbase
      · exact le_trans h3 (hUm4 ⟨h1, h2⟩)
    exact le_trans hbr.2 (max_le h_cl h_cu)

/-- Witness for C5 at the box x in [-1, 1], c in [1, 2] with
alpha = 1, beta = 1, at the interior point (0, 1). -/
theorem C5_lrn_forward_enclosure_witness :
    (0 : ℝ) < 1 ∧ (0 : ℝ) < 1 ∧ (0 : ℝ) < 1 ∧
    (-1 : ℝ) ≤ 0 ∧ (0 : ℝ) ≤ 1 ∧ (1 : ℝ) ≤ 1 ∧ (1 : ℝ) ≤ 2 ∧
    (TheanoInterval.opNormLower 1 1 (-1) 1 1 2 ≤
      TheanoInterval.norm 1 1 0 1 ∧
    TheanoInterval.norm 1 1 0 1 ≤
      TheanoInterval.opNormUpper 1 1 (-1) 1 1 2) :=
  ⟨by norm_num, by norm_num, by norm_num, by norm_num, by norm_num,
    by norm_num, by norm_num,
    C5_lrn_forward_enclosure 1 1 (-1) 1 1 2 0 1 (by norm_num) (by norm_num)
      (by norm_num) (by norm_num) (by norm_num) (by norm_num) (by norm_num)⟩
